import Mathlib

/-!
Verification development for the domostroj voxel wave-function-collapse core.

The definitions below are a shallow embedding of the Rust sources:
  crates/baustein/src/world.rs   (FlatPaddedGridCuboid)
  crates/wfc_3d/src/extent.rs    (Extent, Stamped)
  crates/wfc_3d/src/lib.rs       (Superposition, pseudo-entropy, find_lowest_pseudo_entropy)
  crates/wfc_3d/src/stamp.rs     (ViewStamp, gather_stamps, StampCollection,
                                  CollapseOutcomes)
  crates/wfc_3d/src/wave.rs      (Naive wave: set, limit, limit_stamp, collapse)

Machine integers are modelled as Nat over explicit 64-bit masks where bit
semantics matter; the compile-time shape parameters of the Rust code are
carried as run-time values (the Rust sources state explicitly that this is a
semantically equivalent representation choice).  Indices are triples of
integers.  The recursive propagation of the wave (mutually recursive Rust
methods set, limit, limit_stamp, collapse) is embedded with an explicit fuel
parameter; running out of fuel is a distinguished result, so any run that
produces a value agrees with the Rust recursion.
-/

/-- A signed 3d voxel coordinate, as baustein::indices::Index (an IVec3). -/
abbrev Idx : Type := ℤ × ℤ × ℤ

/-- Componentwise addition of an index and a displacement. -/
def Idx.add (a b : Idx) : Idx := (a.1 + b.1, a.2.1 + b.2.1, a.2.2 + b.2.2)

/-- Componentwise subtraction. -/
def Idx.sub (a b : Idx) : Idx := (a.1 - b.1, a.2.1 - b.2.1, a.2.2 - b.2.2)

/-- Runtime dimensions of a 3d shape, ndshape style. -/
abbrev Dims : Type := ℕ × ℕ × ℕ

/-- Total number of cells of a shape, ndshape Shape::size. -/
def Dims.size (d : Dims) : ℕ := d.1 * d.2.1 * d.2.2

/-- Row-major (x fastest) linearization, as ndshape strides [1, x, x*y]. -/
def Dims.linearize (d : Dims) (p : ℕ × ℕ × ℕ) : ℕ :=
  p.1 + d.1 * p.2.1 + d.1 * d.2.1 * p.2.2

/-- Inverse of linearize, as ndshape delinearize. -/
def Dims.delinearize (d : Dims) (n : ℕ) : ℕ × ℕ × ℕ :=
  (n % d.1, (n / d.1) % d.2.1, n / (d.1 * d.2.1))

/-- Conversion of an unsigned delinearized triple to a displacement
(usize_to_i32_arr in the sources). -/
def Dims.toIdx (p : ℕ × ℕ × ℕ) : Idx := ((p.1 : ℤ), (p.2.1 : ℤ), (p.2.2 : ℤ))

/-- Conversion of a displacement to array coordinates (to_usize_arr in the
sources); only used on componentwise non-negative displacements. -/
def Idx.toDims (a : Idx) : ℕ × ℕ × ℕ := (a.1.toNat, a.2.1.toNat, a.2.2.toNat)

/-- Half-open axis-aligned box from wfc_3d::extent.  The field stop is the
Rust field end (a Lean keyword).  Invariant (enforced by the smart
constructor): every component of start is strictly below stop, or both
corners are the origin and the extent is empty. -/
structure Extent where
  start : Idx
  stop : Idx
deriving DecidableEq, Repr

/-- Extent::new from extent.rs: accept strictly increasing corners, collapse
everything else to the canonical empty extent. -/
def Extent.new (start stop : Idx) : Extent :=
  if start.1 < stop.1 ∧ start.2.1 < stop.2.1 ∧ start.2.2 < stop.2.2 then
    ⟨start, stop⟩
  else
    ⟨(0, 0, 0), (0, 0, 0)⟩

/-- Extent::get_dimensions. -/
def Extent.get_dimensions (e : Extent) : Dims := (e.stop.sub e.start).toDims

/-- Extent::iter, yielding every contained index in row-major order via
RuntimeShape delinearization. -/
def Extent.iter (e : Extent) : List Idx :=
  (List.range e.get_dimensions.size).map
    (fun n => e.start.add (Dims.toIdx (e.get_dimensions.delinearize n)))

/-- Extent::intersection: componentwise max of starts, min of stops,
renormalized through Extent::new. -/
def Extent.intersection (e other : Extent) : Extent :=
  Extent.new
    (max e.start.1 other.start.1,
     max e.start.2.1 other.start.2.1,
     max e.start.2.2 other.start.2.2)
    (min e.stop.1 other.stop.1,
     min e.stop.2.1 other.stop.2.1,
     min e.stop.2.2 other.stop.2.2)

/-- Membership of an index in the box spanned by an extent (the semantic
counterpart of iteration, used to state theorems). -/
def Extent.memBox (e : Extent) (i : Idx) : Prop :=
  e.start.1 ≤ i.1 ∧ i.1 < e.stop.1 ∧
  e.start.2.1 ≤ i.2.1 ∧ i.2.1 < e.stop.2.1 ∧
  e.start.2.2 ≤ i.2.2 ∧ i.2.2 < e.stop.2.2

instance (e : Extent) (i : Idx) : Decidable (e.memBox i) := by
  unfold Extent.memBox; infer_instance

/-- Stamped::get_stamps_extent for an extent: offsets at which a stamp of
dimensions sd fits entirely inside the extent. -/
def Extent.get_stamps_extent (e : Extent) (sd : Dims) : Extent :=
  Extent.new e.start ((e.stop.sub (Dims.toIdx sd)).add (1, 1, 1))

/-- Stamped::get_stamps_containing for an extent: the stamp offsets whose
window contains the given index, clamped to the stamps extent. -/
def Extent.get_stamps_containing (e : Extent) (sd : Dims) (index : Idx) : Extent :=
  (e.get_stamps_extent sd).intersection
    (Extent.new ((index.sub (Dims.toIdx sd)).add (1, 1, 1)) (index.add (1, 1, 1)))

/-- baustein::world::FlatPaddedGridCuboid: a flat row-major buffer with an
offset; reads outside the box give the default voxel.  The compile-time
Shape parameter of the sources is carried by value in the dims field. -/
structure FlatPaddedGridCuboid (V : Type) where
  data : List V
  offset : Idx
  dims : Dims
deriving DecidableEq, Repr

namespace FlatPaddedGridCuboid

/-- FlatPaddedGridCuboid::new: a buffer of Shape::SIZE default values. -/
def new (V : Type) [Inhabited V] (offset : Idx) (dims : Dims) :
    FlatPaddedGridCuboid V :=
  ⟨List.replicate dims.size default, offset, dims⟩

/-- Cuboid::get_beyond_opposite_corner: offset plus dimensions. -/
def get_beyond_opposite_corner (c : FlatPaddedGridCuboid V) : Idx :=
  c.offset.add (Dims.toIdx c.dims)

/-- FlatPaddedGridCuboid::contains: between offset and the actual opposite
corner, inclusive (the source compares against opposite_corner, which is one
unit inside get_beyond_opposite_corner). -/
def contains (c : FlatPaddedGridCuboid V) (i : Idx) : Bool :=
  let opp := (c.get_beyond_opposite_corner).sub (1, 1, 1)
  decide (c.offset.1 ≤ i.1 ∧ i.1 ≤ opp.1 ∧
          c.offset.2.1 ≤ i.2.1 ∧ i.2.1 ≤ opp.2.1 ∧
          c.offset.2.2 ≤ i.2.2 ∧ i.2.2 ≤ opp.2.2)

/-- Space::get for FlatPaddedGridCuboid: buffer element at
linearize(i - offset) inside the box, the default voxel outside. -/
def get [Inhabited V] (c : FlatPaddedGridCuboid V) (i : Idx) : V :=
  if c.contains i then
    c.data.getD (c.dims.linearize (i.sub c.offset).toDims) default
  else
    default

/-- FlatPaddedGridCuboid::set: functional update of the buffer cell inside
the box; Err(OutOfBounds), modelled as none, outside (the cuboid is then
unchanged, which the functional embedding expresses by returning no new
cuboid at all). -/
def set (c : FlatPaddedGridCuboid V) (i : Idx) (v : V) :
    Option (FlatPaddedGridCuboid V) :=
  if c.contains i then
    some ⟨c.data.set (c.dims.linearize (i.sub c.offset).toDims) v, c.offset, c.dims⟩
  else
    none

/-- The extent of the cuboid, as Naive::get_extent builds it. -/
def get_extent (c : FlatPaddedGridCuboid V) : Extent :=
  Extent.new c.offset c.get_beyond_opposite_corner

/-- Stamped::get_stamps_extent for a cuboid. -/
def get_stamps_extent (c : FlatPaddedGridCuboid V) (sd : Dims) : Extent :=
  Extent.new c.offset
    ((c.get_beyond_opposite_corner.sub (Dims.toIdx sd)).add (1, 1, 1))

end FlatPaddedGridCuboid

/-- Voxel identifiers are 8-bit in the sources. -/
abbrev VoxelId : Type := ℕ

/-- The raw 64-bit mask of a Superposition; a set bit marks a disallowed
voxel id.  The palette size D is passed to the operations that use it, as
the const generic DIMENSIONS does in the sources. -/
abbrev Mask : Type := ℕ

namespace Superposition

/-- Superposition::FREE: nothing excluded. -/
def FREE : Mask := 0

/-- Superposition::impossible as written in the sources:
((D as u64) << 2) - 1.  (Note: this is 4*D - 1, not the low-D-bits mask the
documentation describes.) -/
def impossible (D : ℕ) : Mask := (D <<< 2) - 1

/-- Superposition::only: the impossible mask with bit v cleared
(impossible().0 and the complement of 1 << v over u64). -/
def only (D : ℕ) (v : VoxelId) : Mask :=
  (impossible D) &&& ((2 ^ 64 - 1) - (1 <<< v))

/-- Superposition::allows: bit v of the mask is clear. -/
def allows (m : Mask) (v : VoxelId) : Bool :=
  m &&& (1 <<< v) == 0

/-- u64::count_ones over the 64 relevant bits. -/
def count_ones (m : Mask) : ℕ :=
  (List.range 64).foldl (fun a i => a + ((m >>> i) &&& 1)) 0

/-- Superposition::count_allowed: D - count_ones on u8.  The subtraction is
a checked u8 subtraction in the sources (it panics on underflow in a debug
build), so the result is an Option: none models the panic. -/
def count_allowed (D : ℕ) (m : Mask) : Option ℕ :=
  if count_ones m ≤ D then some (D - count_ones m) else none

end Superposition

/-- A stamp, represented by its canonical-order sample list: element n is
the voxel at StampIndex delinearize(n).  This is the owned-contents
representation that the sources name as an allowed alternative to the
borrowing ViewStamp; ViewStamp content-equality is exactly equality of
these sample lists (ViewStamp::get_samples). -/
abbrev Stamp : Type := List VoxelId

/-- StampCollection: stamps with occurrence counts (the Vec inside
StampCollection; a HashMap iteration order fixed as a list). -/
abbrev StampColl : Type := List (Stamp × ℕ)

/-- StampCollection::get_total_occurrences. -/
def get_total_occurrences (stamps : StampColl) : ℕ :=
  (stamps.map Prod.snd).sum

/-- A wave grid: a cuboid of superposition masks
(FlatPaddedGridCuboid of Superposition, the world field of wave::Naive). -/
abbrev Wave : Type := FlatPaddedGridCuboid Mask

/-- ViewStamp::get_samples of the window of shape sd at offset o in a
cuboid: sample n is the space voxel at o + delinearize(n). -/
def stampSamples [Inhabited V] (c : FlatPaddedGridCuboid V) (sd : Dims) (o : Idx) :
    List V :=
  (List.range sd.size).map (fun n => c.get (o.add (Dims.toIdx (sd.delinearize n))))

/-- One step of the popcount fold of gather_stamps: bump the count of an
already-seen stamp or append a new one with count 1 (the HashMap
entry().or_insert(0) += 1 pattern, with first-seen order made explicit). -/
def addOccurrence (acc : StampColl) (s : Stamp) : StampColl :=
  match acc with
  | [] => [(s, 1)]
  | (t, c) :: rest => if t = s then (t, c + 1) :: rest else (t, c) :: addOccurrence rest s

/-- gather_stamps from stamp.rs: every window of shape sd fitting inside
the template cuboid, counted up to content equality.  The source returns a
HashMap whose iteration order is unspecified; the embedding fixes
first-seen order, which represents the same stamp-to-count mapping. -/
def gather_stamps (c : FlatPaddedGridCuboid VoxelId) (sd : Dims) : StampColl :=
  ((c.get_stamps_extent sd).iter).foldl
    (fun acc o => addOccurrence acc (stampSamples c sd o)) []

/-- ViewStamp::allows for a superposition view: every cell of the window at
offset o allows the corresponding stamp voxel. -/
def viewAllows (w : Wave) (sd : Dims) (o : Idx) (s : Stamp) : Bool :=
  (List.range sd.size).all
    (fun n => Superposition.allows (w.get (o.add (Dims.toIdx (sd.delinearize n)))) (s.getD n 0))

/-- CollapseOutcomes from stamp.rs. -/
inductive CollapseOutcomes where
  | one (s : Stamp)
  | none
  | multiple
deriving DecidableEq, Repr

/-- The accumulator loop of StampCollection::get_collapse_outcomes: walk the
fitting stamps, upgrading None to One and One to Multiple (with the
source's early break). -/
def outcomesLoop (w : Wave) (sd : Dims) (o : Idx) :
    List (Stamp × ℕ) → CollapseOutcomes → CollapseOutcomes
  | [], acc => acc
  | p :: rest, acc =>
    if viewAllows w sd o p.1 then
      match acc with
      | .none => outcomesLoop w sd o rest (.one p.1)
      | .one _ => .multiple
      | .multiple => .multiple
    else outcomesLoop w sd o rest acc

/-- StampCollection::get_collapse_outcomes. -/
def get_collapse_outcomes (stamps : StampColl) (w : Wave) (sd : Dims) (o : Idx) :
    CollapseOutcomes :=
  outcomesLoop w sd o stamps .none

/-- The log2 of lib.rs: usize::BITS - leading_zeros - 1, i.e. the floor
binary logarithm.  Undefined (a panic) at 0 in the sources; every use below
is guarded by positivity, where Nat.log2 coincides with it. -/
def log2 (v : ℕ) : ℕ := Nat.log2 v

/-- get_pseudo_entropy from lib.rs.  The sum is computed exactly in usize;
only the final division is f32 in the sources, modelled here as the exact
rational quotient. -/
def get_pseudo_entropy (weights : List ℕ) (total : ℕ) : ℚ :=
  ((weights.map (fun w => w * (log2 total - log2 w))).sum : ℚ) / (total : ℚ)

/-- get_distribution from lib.rs: the occurrence counts of the stamps that
fit the superposition view. -/
def get_distribution (stamps : StampColl) (w : Wave) (sd : Dims) (o : Idx) :
    List (Stamp × ℕ) :=
  stamps.filter (fun p => viewAllows w sd o p.1)

/-- PseudoEntropy from lib.rs (the Open constructor is spelled opened, Open
being unavailable as a Lean name). -/
inductive PseudoEntropy where
  | impossible
  | collapsed
  | opened (h : ℚ)
deriving DecidableEq, Repr

/-- get_superposition_pseudo_entropy from lib.rs. -/
def get_superposition_pseudo_entropy (stamps : StampColl) (w : Wave) (sd : Dims)
    (o : Idx) (total : ℕ) : PseudoEntropy :=
  let possibilities := (get_distribution stamps w sd o).length
  if possibilities = 0 then .impossible
  else if possibilities = 1 then .collapsed
  else .opened (get_pseudo_entropy ((get_distribution stamps w sd o).map Prod.snd) total)

/-- Iterator::min_by_key over (index, entropy) pairs: the first element
attaining the minimal key (Rust min_by_key keeps the earliest minimum). -/
def minByKeyFirst (l : List (Idx × ℚ)) : Option (Idx × ℚ) :=
  match l with
  | [] => none
  | x :: rest => some (rest.foldl (fun acc a => if a.2 < acc.2 then a else acc) x)

/-- The (index, entropy) pairs of the Open sites, in stamps-extent
iteration order (the filter_map stage of find_lowest_pseudo_entropy). -/
def openSites (stamps : StampColl) (w : Wave) (sd : Dims) (total : ℕ) :
    List (Idx × ℚ) :=
  (w.get_stamps_extent sd).iter.filterMap
    (fun i => match get_superposition_pseudo_entropy stamps w sd i total with
      | .opened h => some (i, h)
      | _ => none)

/-- find_lowest_pseudo_entropy from lib.rs. -/
def find_lowest_pseudo_entropy (w : Wave) (stamps : StampColl) (sd : Dims)
    (total : ℕ) : Option Idx :=
  (minByKeyFirst (openSites stamps w sd total)).map Prod.fst

/-- Result of one call into the Naive wave methods: fuelOut is the embedding
artifact for exhausted fuel, panicked an unwind propagating from the unwrap
in Naive::collapse, oob the Err(OutOfBounds) value of Naive::set and
Naive::limit_stamp; ok carries the updated wave (Naive::collapse returns
unit in the sources and never produces oob). -/
inductive WaveRes where
  | fuelOut
  | panicked
  | oob
  | ok (w : Wave)
deriving DecidableEq, Repr

/-- The pending call of the mutually recursive Naive methods set,
limit_stamp (whose visit_indices loop is limitCells), collapse (whose
iteration over stamp offsets is collapseSites).  The five mutually
recursive Rust methods are embedded as one recursion over this descriptor
so that the recursion is structural in the fuel alone; the wrappers below
restore the source names. -/
inductive WaveCall where
  | set (w : Wave) (index : Idx) (value : Mask)
  | limitCells (w : Wave) (index : Idx) (stamp : Stamp) (ns : List ℕ)
  | limitStamp (w : Wave) (index : Idx) (stamp : Stamp)
  | collapseSites (w : Wave) (sites : List Idx)
  | collapse (w : Wave) (extent : Extent)

/-- The joint body of the mutually recursive Naive wave methods of wave.rs:

set: no-op when the value is unchanged, otherwise write and propagate over
the stamp windows containing the index (an OutOfBounds from the cuboid
write is returned as oob);

limitCells: the visit_indices loop of limit_stamp over the remaining
linearized stamp indices, narrowing each differing cell through
Naive::limit, which in the sources is a direct call to Naive::set (the
intersection it is documented to perform is a FIXME there); an OutOfBounds
short-circuits the loop;

limitStamp: force every cell of the window at index toward
only(stamp voxel);

collapseSites: the iteration of collapse over the stamp offsets of the
clamped extent, forcing every window that admits exactly one stamp; the
unwrap on the limit_stamp result turns an OutOfBounds into a panic;

collapse: propagate over the intersection of the requested extent with the
stamps extent of the wave. -/
def waveExec (D : ℕ) (sd : Dims) (stamps : StampColl) : ℕ → WaveCall → WaveRes
  | 0, _ => .fuelOut
  | fuel + 1, c =>
    match c with
    | .set w index value =>
      if w.get index = value then .ok w
      else
        match w.set index value with
        | none => .oob
        | some w1 =>
          match waveExec D sd stamps fuel
              (.collapse w1 (w1.get_extent.get_stamps_containing sd index)) with
          | .fuelOut => .fuelOut
          | .panicked => .panicked
          | .oob => .oob
          | .ok w2 => .ok w2
    | .limitCells w index stamp ns =>
      match ns with
      | [] => .ok w
      | n :: rest =>
        let voxel := stamp.getD n 0
        let newMask := Superposition.only D voxel
        let idx := index.add (Dims.toIdx (sd.delinearize n))
        if newMask ≠ w.get idx then
          match waveExec D sd stamps fuel (.set w idx newMask) with
          | .fuelOut => .fuelOut
          | .panicked => .panicked
          | .oob => .oob
          | .ok w1 => waveExec D sd stamps fuel (.limitCells w1 index stamp rest)
        else
          waveExec D sd stamps fuel (.limitCells w index stamp rest)
    | .limitStamp w index stamp =>
      waveExec D sd stamps fuel (.limitCells w index stamp (List.range sd.size))
    | .collapseSites w sites =>
      match sites with
      | [] => .ok w
      | o :: rest =>
        match get_collapse_outcomes stamps w sd o with
        | .one stamp =>
          match waveExec D sd stamps fuel (.limitStamp w o stamp) with
          | .fuelOut => .fuelOut
          | .panicked => .panicked
          | .oob => .panicked
          | .ok w1 => waveExec D sd stamps fuel (.collapseSites w1 rest)
        | _ => waveExec D sd stamps fuel (.collapseSites w rest)
    | .collapse w extent =>
      waveExec D sd stamps fuel
        (.collapseSites w ((extent.intersection (w.get_stamps_extent sd)).iter))

/-- Naive::set from wave.rs. -/
def waveSet (D : ℕ) (sd : Dims) (stamps : StampColl) (fuel : ℕ) (w : Wave)
    (index : Idx) (value : Mask) : WaveRes :=
  waveExec D sd stamps fuel (.set w index value)

/-- Naive::limit from wave.rs is a direct call to Naive::set (its documented
logical-AND behaviour is a FIXME in the sources). -/
def waveLimit (D : ℕ) (sd : Dims) (stamps : StampColl) (fuel : ℕ) (w : Wave)
    (index : Idx) (value : Mask) : WaveRes :=
  waveSet D sd stamps fuel w index value

/-- Naive::limit_stamp from wave.rs. -/
def waveLimitStamp (D : ℕ) (sd : Dims) (stamps : StampColl) (fuel : ℕ) (w : Wave)
    (index : Idx) (stamp : Stamp) : WaveRes :=
  waveExec D sd stamps fuel (.limitStamp w index stamp)

/-- Naive::collapse from wave.rs. -/
def waveCollapse (D : ℕ) (sd : Dims) (stamps : StampColl) (fuel : ℕ) (w : Wave)
    (extent : Extent) : WaveRes :=
  waveExec D sd stamps fuel (.collapse w extent)

/-- Modelled from the spec: find_preferred_stamp is called by the generator
driver (src/generate/mod.rs) but its definition is not among the wfc_3d
sources provided; spec 4.10: among the stamps fitting at the chosen site,
pick the one with the largest occurrence count, ties broken in favour of
the first in collection order. -/
def find_preferred_stamp (stamps : StampColl) (w : Wave) (sd : Dims) (o : Idx) :
    Option Stamp :=
  match stamps.filter (fun p => viewAllows w sd o p.1) with
  | [] => none
  | p :: rest => some ((rest.foldl (fun acc a => if acc.2 < a.2 then a else acc) p).1)

/-- Modelled from the spec: the collapse driver outer loop of spec 4.12
(the loop in the sources lives in the generator UI event handler, outside
the wfc_3d crate): find the lowest-pseudo-entropy site, stop when none is
open, otherwise force the preferred stamp there (which also propagates).
The outer fuel counts driver iterations; innerFuel feeds each limit_stamp
propagation. -/
def driverRun (D : ℕ) (sd : Dims) (stamps : StampColl) (innerFuel : ℕ) :
    ℕ → Wave → Option Wave
  | 0, _ => none
  | fuel + 1, w =>
    match find_lowest_pseudo_entropy w stamps sd (get_total_occurrences stamps) with
    | none => some w
    | some site =>
      match find_preferred_stamp stamps w sd site with
      | none => none
      | some stamp =>
        match waveLimitStamp D sd stamps innerFuel w site stamp with
        | .ok w1 => driverRun D sd stamps innerFuel fuel w1
        | _ => none

/-- The S2 template of the spec: a 4x4x4 cuboid whose voxels are id 1 below
the plane y = 2 and id 0 elsewhere (buffer cell n holds the voxel of the
delinearized coordinate of n, exactly as map_index followed by sampling
builds it in the tests). -/
def s5Template : FlatPaddedGridCuboid VoxelId :=
  ⟨(List.range (Dims.size (4, 4, 4))).map
      (fun n => if (Dims.delinearize (4, 4, 4) n).2.1 < 2 then 1 else 0),
   (0, 0, 0), (4, 4, 4)⟩

/-- The stamp collection gathered from the S2 template with 2x2x2 stamps. -/
def s5Stamps : StampColl := gather_stamps s5Template (2, 2, 2)

/-- The S5 wave: 4x4x4, all cells FREE. -/
def s5Wave : Wave := FlatPaddedGridCuboid.new ℕ (0, 0, 0) (4, 4, 4)

/-- The whole S5 scenario as one boolean check: set((0,1,0), only(1)),
compare three cells of the propagated wave, then set((0,2,0), only(0)) and
compare two more cells. -/
def s5Check : Bool :=
  match waveSet 2 (2, 2, 2) s5Stamps 1000 s5Wave (0, 1, 0) (Superposition.only 2 1) with
  | .ok w1 =>
    match waveSet 2 (2, 2, 2) s5Stamps 1000 w1 (0, 2, 0) (Superposition.only 2 0) with
    | .ok w2 =>
      w1.get (0, 0, 0) == Superposition.only 2 1 &&
      w1.get (0, 3, 0) == Superposition.FREE &&
      w1.get (3, 3, 3) == Superposition.FREE &&
      w2.get (0, 3, 0) == Superposition.only 2 0 &&
      w2.get (3, 3, 3) == Superposition.only 2 0
    | _ => false
  | _ => false

/-- Bitwise containment of forbidden-sets: every bit set in a is set in b
(a is at most as restrictive as b). -/
def maskLe (a b : Mask) : Prop := ∀ k, a.testBit k = true → b.testBit k = true

/-- Every cell of the wave is within the impossible() mask of the palette
(no forbidden bit outside the mask the code can ever produce). -/
def cleanWave (D : ℕ) (w : Wave) : Prop :=
  ∀ i : Idx, maskLe (w.get i) (Superposition.impossible D)

/-- The invariant of the Extent constructor: strictly increasing corners or
the canonical empty extent. -/
def Extent.valid (e : Extent) : Prop :=
  (e.start.1 < e.stop.1 ∧ e.start.2.1 < e.stop.2.1 ∧ e.start.2.2 < e.stop.2.2) ∨
  (e.start = (0, 0, 0) ∧ e.stop = (0, 0, 0))

/-- The wave of the C4 counterexample: a single cell holding only(0). -/
def c4Wave : Wave := ⟨[Superposition.only 2 0], (0, 0, 0), (1, 1, 1)⟩

/-- The stamp collection of the C4 counterexample: two 1x1x1 stamps. -/
def c4Stamps : StampColl := [([0], 1), ([1], 1)]

/-- The wave of the C5 counterexample: a single cell holding only(1) over a
palette of size 3. -/
def c5Wave : Wave := ⟨[Superposition.only 3 1], (0, 0, 0), (1, 1, 1)⟩

/-- The stamp collection of the C5 counterexample: two 1x1x1 stamps with
occurrence counts 2 and 1. -/
def c5Stamps : StampColl := [([1], 2), ([2], 1)]

/-- The wave argument of a pending call (the receiver of the corresponding
Naive method). -/
def callWave (c : WaveCall) : Wave :=
  match c with
  | .set w _ _ => w
  | .limitCells w _ _ _ => w
  | .limitStamp w _ _ => w
  | .collapseSites w _ => w
  | .collapse w _ => w

/-- Every cell of the stamp window at offset o lies inside the wave
cuboid. -/
def windowInBounds (w : Wave) (sd : Dims) (o : Idx) : Prop :=
  ∀ n, n < sd.size → w.contains (o.add (Dims.toIdx (sd.delinearize n))) = true

/-- The first wave is pointwise at most as restrictive as the second:
every forbidden bit of a cell of the first is forbidden in the second. -/
def wavePointwiseLe (w w' : Wave) : Prop :=
  ∀ i : Idx, maskLe (w.get i) (w'.get i)

/-- Justification of a pending call relative to a base wave w0: the current
wave has grown from w0, and every mask the call is about to write is itself
above the corresponding base cell (for a raw set, the written value; for the
limit_stamp window loop, the only() masks of the stamp voxels at the
remaining linearized indices). -/
def GoodCall (D : ℕ) (sd : Dims) (w0 : Wave) : WaveCall → Prop
  | .set w i v => wavePointwiseLe w0 w ∧ maskLe (w0.get i) v
  | .limitCells w i stamp ns => wavePointwiseLe w0 w ∧
      ∀ n ∈ ns, maskLe (w0.get (i.add (Dims.toIdx (sd.delinearize n))))
        (Superposition.only D (stamp.getD n 0))
  | .limitStamp w i stamp => wavePointwiseLe w0 w ∧
      ∀ n, n < sd.size → maskLe (w0.get (i.add (Dims.toIdx (sd.delinearize n))))
        (Superposition.only D (stamp.getD n 0))
  | .collapseSites w _ => wavePointwiseLe w0 w
  | .collapse w _ => wavePointwiseLe w0 w

/-- C1: the claim states that for 1 <= D <= 64 and v < D, FREE allows v,
only(v) leaves exactly one id allowed and impossible() leaves none, with
impossible() being the low-D-bits mask.  The code contradicts this at
D = 2, v = 0: impossible() evaluates ((D as u64) << 2) - 1 = 7, not 3, so
only(0) = 6 has two bits set and count_allowed() = 0 instead of 1, and
count_allowed() of impossible() underflows u8 (three bits set, D = 2);
FREE.allows(v) itself does hold. -/
theorem superposition_impossible_mask_bug :
    Superposition.allows Superposition.FREE 0 = true ∧
    Superposition.impossible 2 = 7 ∧
    Superposition.only 2 0 = 6 ∧
    Superposition.count_allowed 2 (Superposition.only 2 0) = some 0 ∧
    Superposition.count_allowed 2 (Superposition.impossible 2) = none := by
  decide

/-- C5: on the one-cell wave over D = 3 whose cell is only(1), with stamps
[1] (count 2) and [2] (count 1), the spec-modelled driver loop never
terminates: the site stays Open because only(1) = 9 under the buggy
impossible() mask still allows id 2, and forcing the preferred stamp [1]
changes nothing.  After 4 iterations (more than the claimed bound
cells * D = 1 * 3) the loop is still running, and a single step returns
the very wave it started from. -/
theorem collapse_driver_nonterminating :
    driverRun 3 (1, 1, 1) c5Stamps 100 4 c5Wave = none ∧
    find_lowest_pseudo_entropy c5Wave c5Stamps (1, 1, 1)
      (get_total_occurrences c5Stamps) = some (0, 0, 0) ∧
    find_preferred_stamp c5Stamps c5Wave (1, 1, 1) (0, 0, 0) = some [1] ∧
    waveLimitStamp 3 (1, 1, 1) c5Stamps 100 c5Wave (0, 0, 0) [1] = .ok c5Wave := by
  decide

/-- C4 counterexample: Naive::set is not a monotone restriction.  On the
one-cell wave holding only(0) with two 1x1x1 stamps, set((0,0,0), FREE)
returns Ok, the stamp offset (0,0,0) (whose window lies entirely inside
the box [i - D + 1, i + 1]) admitted one stamp before the call and admits
two afterwards. -/
theorem set_not_monotone_restriction :
    ∃ w', waveSet 2 (1, 1, 1) c4Stamps 10 c4Wave (0, 0, 0) Superposition.FREE = .ok w' ∧
      (get_distribution c4Stamps c4Wave (1, 1, 1) (0, 0, 0)).length <
      (get_distribution c4Stamps w' (1, 1, 1) (0, 0, 0)).length :=
  ⟨⟨[0], (0, 0, 0), (1, 1, 1)⟩, by decide⟩

set_option maxRecDepth 1000000 in
set_option maxHeartbeats 16000000 in
/-- C3: the S5 boundary scenario.  With the stamp collection gathered from
the 4x4x4 split template (2x2x2 stamps) and the all-FREE 4x4x4 wave over
D = 2: after set((0,1,0), only(1)) and its propagation, the wave reads
only(1) at (0,0,0) and FREE at (0,3,0) and (3,3,3); after the subsequent
set((0,2,0), only(0)) and its propagation it reads only(0) at (0,3,0) and
at (3,3,3).  Both calls return Ok and complete within the given fuel, so
the fuel embedding agrees with the Rust recursion. -/
theorem s5_scenario_propagation : s5Check = true := by
  decide

theorem Dims.size_pos_parts (d : Dims) (n : ℕ) (h : n < d.size) :
    0 < d.1 ∧ 0 < d.2.1 ∧ 0 < d.2.2 := by
  obtain ⟨x, y, z⟩ := d
  simp only [Dims.size] at h
  have hs : 0 < x * y * z := by omega
  have hx : 0 < x := by
    rcases Nat.eq_zero_or_pos x with h0 | h0
    · subst h0; simp at hs
    · exact h0
  have hy : 0 < y := by
    rcases Nat.eq_zero_or_pos y with h0 | h0
    · subst h0; simp at hs
    · exact h0
  have hz : 0 < z := by
    rcases Nat.eq_zero_or_pos z with h0 | h0
    · subst h0; simp at hs
    · exact h0
  exact ⟨hx, hy, hz⟩

theorem Dims.delinearize_lt (d : Dims) (n : ℕ) (h : n < d.size) :
    (d.delinearize n).1 < d.1 ∧ (d.delinearize n).2.1 < d.2.1 ∧
    (d.delinearize n).2.2 < d.2.2 := by
  obtain ⟨hx, hy, hz⟩ := Dims.size_pos_parts d n h
  obtain ⟨x, y, z⟩ := d
  simp only [Dims.size] at h
  simp only [Dims.delinearize]
  refine ⟨Nat.mod_lt _ hx, Nat.mod_lt _ hy, ?_⟩
  have hxy : 0 < x * y := Nat.mul_pos hx hy
  rw [Nat.div_lt_iff_lt_mul hxy]
  calc n < x * y * z := h
    _ = z * (x * y) := by ring

theorem Dims.linearize_lt (d : Dims) (p : ℕ × ℕ × ℕ)
    (h1 : p.1 < d.1) (h2 : p.2.1 < d.2.1) (h3 : p.2.2 < d.2.2) :
    d.linearize p < d.size := by
  obtain ⟨x, y, z⟩ := d
  obtain ⟨a, b, c⟩ := p
  have h1' : a < x := h1
  have h2' : b < y := h2
  have h3' : c < z := h3
  show a + x * b + x * y * c < x * y * z
  have e1 : x * (1 + b + y * c) = x + x * b + x * y * c := by ring
  have s1 : a + x * b + x * y * c + 1 ≤ x * (1 + b + y * c) := by omega
  have e2 : y * (1 + c) = y + y * c := by ring
  have s2 : 1 + b + y * c ≤ y * (1 + c) := by omega
  have s3 : x * (1 + b + y * c) ≤ x * (y * (1 + c)) := Nat.mul_le_mul_left x s2
  have s4 : x * (y * (1 + c)) ≤ x * (y * z) :=
    Nat.mul_le_mul_left x (Nat.mul_le_mul_left y (by omega))
  have e3 : x * (y * z) = x * y * z := by ring
  omega

theorem Dims.delinearize_linearize (d : Dims) (p : ℕ × ℕ × ℕ)
    (h1 : p.1 < d.1) (h2 : p.2.1 < d.2.1) (h3 : p.2.2 < d.2.2) :
    d.delinearize (d.linearize p) = p := by
  obtain ⟨x, y, z⟩ := d
  obtain ⟨a, b, c⟩ := p
  have h1 : a < x := h1
  have h2 : b < y := h2
  have h3 : c < z := h3
  have hx : 0 < x := by omega
  have hxy : 0 < x * y := Nat.mul_pos hx (by omega)
  show Dims.delinearize (x, y, z) (a + x * b + x * y * c) = (a, b, c)
  simp only [Dims.delinearize]
  have e0 : a + x * b + x * y * c = a + x * (b + y * c) := by ring
  have c1 : (a + x * b + x * y * c) % x = a := by
    rw [e0, Nat.add_mul_mod_self_left, Nat.mod_eq_of_lt h1]
  have cdiv : (a + x * b + x * y * c) / x = b + y * c := by
    rw [e0, Nat.add_mul_div_left a _ hx, Nat.div_eq_of_lt h1, Nat.zero_add]
  have c2 : (a + x * b + x * y * c) / x % y = b := by
    rw [cdiv, Nat.add_mul_mod_self_left, Nat.mod_eq_of_lt h2]
  have e1 : a + x * b + x * y * c = (a + x * b) + x * y * c := by ring
  have hab : a + x * b < x * y := by
    have g1 : x * (1 + b) = x + x * b := by ring
    have g2 : a + x * b + 1 ≤ x * (1 + b) := by omega
    have g3 : x * (1 + b) ≤ x * y := Nat.mul_le_mul_left x (by omega)
    omega
  have c3 : (a + x * b + x * y * c) / (x * y) = c := by
    rw [e1, Nat.add_mul_div_left _ _ hxy, Nat.div_eq_of_lt hab, Nat.zero_add]
  rw [c1, c2, c3]

theorem Extent.mem_iter_iff_of_valid (e : Extent) (he : e.valid) (i : Idx) :
    i ∈ e.iter ↔ e.memBox i := by
  obtain ⟨⟨sx, sy, sz⟩, ⟨tx, ty, tz⟩⟩ := e
  obtain ⟨i1, i2, i3⟩ := i
  rcases he with ⟨ha, hb, hc⟩ | ⟨hs, ht⟩
  · have ha : sx < tx := ha
    have hb : sy < ty := hb
    have hc : sz < tz := hc
    simp only [Extent.iter, Extent.get_dimensions, Extent.memBox, Idx.sub, Idx.toDims,
      List.mem_map, List.mem_range]
    constructor
    · rintro ⟨n, hn, heq⟩
      obtain ⟨d1, d2, d3⟩ :=
        Dims.delinearize_lt ((tx - sx).toNat, (ty - sy).toNat, (tz - sz).toNat) n hn
      have d1' : (Dims.delinearize ((tx - sx).toNat, (ty - sy).toNat, (tz - sz).toNat) n).1
          < (tx - sx).toNat := d1
      have d2' : (Dims.delinearize ((tx - sx).toNat, (ty - sy).toNat, (tz - sz).toNat) n).2.1
          < (ty - sy).toNat := d2
      have d3' : (Dims.delinearize ((tx - sx).toNat, (ty - sy).toNat, (tz - sz).toNat) n).2.2
          < (tz - sz).toNat := d3
      have e1 : sx + ((Dims.delinearize ((tx - sx).toNat, (ty - sy).toNat, (tz - sz).toNat) n).1 : ℤ)
          = i1 := congrArg Prod.fst heq
      have e2 : sy + ((Dims.delinearize ((tx - sx).toNat, (ty - sy).toNat, (tz - sz).toNat) n).2.1 : ℤ)
          = i2 := congrArg (fun q => q.2.1) heq
      have e3 : sz + ((Dims.delinearize ((tx - sx).toNat, (ty - sy).toNat, (tz - sz).toNat) n).2.2 : ℤ)
          = i3 := congrArg (fun q => q.2.2) heq
      refine ⟨?_, ?_, ?_, ?_, ?_, ?_⟩ <;> omega
    · rintro ⟨m1, m2, m3, m4, m5, m6⟩
      refine ⟨Dims.linearize ((tx - sx).toNat, (ty - sy).toNat, (tz - sz).toNat)
        ((i1 - sx).toNat, (i2 - sy).toNat, (i3 - sz).toNat), ?_, ?_⟩
      · refine Dims.linearize_lt _ _ ?_ ?_ ?_
        · show (i1 - sx).toNat < (tx - sx).toNat
          omega
        · show (i2 - sy).toNat < (ty - sy).toNat
          omega
        · show (i3 - sz).toNat < (tz - sz).toNat
          omega
      · rw [Dims.delinearize_linearize _ _ (by show (i1 - sx).toNat < (tx - sx).toNat; omega)
          (by show (i2 - sy).toNat < (ty - sy).toNat; omega)
          (by show (i3 - sz).toNat < (tz - sz).toNat; omega)]
        simp only [Idx.add, Dims.toIdx, Prod.mk.injEq]
        refine ⟨?_, ?_, ?_⟩ <;> omega
  · have hx0 : sx = 0 := congrArg Prod.fst hs
    have hy0 : sy = 0 := congrArg (fun q => q.2.1) hs
    have hz0 : sz = 0 := congrArg (fun q => q.2.2) hs
    have tx0 : tx = 0 := congrArg Prod.fst ht
    have ty0 : ty = 0 := congrArg (fun q => q.2.1) ht
    have tz0 : tz = 0 := congrArg (fun q => q.2.2) ht
    subst hx0 hy0 hz0 tx0 ty0 tz0
    simp only [Extent.iter, Extent.get_dimensions, Extent.memBox, Idx.sub, Idx.toDims]
    constructor
    · intro hmem
      simp [Dims.size] at hmem
    · rintro ⟨m1, m2, _⟩
      omega

theorem Extent.valid_new (a b : Idx) : (Extent.new a b).valid := by
  unfold Extent.new
  split
  · rename_i h
    exact Or.inl ⟨h.1, h.2.1, h.2.2⟩
  · exact Or.inr ⟨rfl, rfl⟩

theorem Extent.memBox_new (a b i : Idx) :
    (Extent.new a b).memBox i ↔
      (a.1 ≤ i.1 ∧ i.1 < b.1 ∧ a.2.1 ≤ i.2.1 ∧ i.2.1 < b.2.1 ∧
       a.2.2 ≤ i.2.2 ∧ i.2.2 < b.2.2) := by
  unfold Extent.new
  split
  · exact Iff.rfl
  · rename_i h
    simp only [Extent.memBox]
    constructor
    · rintro ⟨m1, m2, _⟩
      omega
    · rintro ⟨m1, m2, m3, m4, m5, m6⟩
      exact absurd ⟨by omega, by omega, by omega⟩ h

theorem Extent.valid_intersection (e f : Extent) : (e.intersection f).valid :=
  Extent.valid_new _ _

theorem Extent.memBox_intersection (e f : Extent) (i : Idx) :
    (e.intersection f).memBox i ↔ (e.memBox i ∧ f.memBox i) := by
  unfold Extent.intersection
  rw [Extent.memBox_new]
  simp only [Extent.memBox]
  constructor
  · rintro ⟨m1, m2, m3, m4, m5, m6⟩
    exact ⟨⟨by omega, by omega, by omega, by omega, by omega, by omega⟩,
           ⟨by omega, by omega, by omega, by omega, by omega, by omega⟩⟩
  · rintro ⟨⟨p1, p2, p3, p4, p5, p6⟩, ⟨q1, q2, q3, q4, q5, q6⟩⟩
    exact ⟨by omega, by omega, by omega, by omega, by omega, by omega⟩

/-- C9: for valid extents A and B (the constructor invariant: strictly
increasing corners or the canonical empty extent), an index is yielded by
iterating the intersection exactly when it is yielded by iterating both A
and B; in particular the intersection iterates nothing when A and B are
disjoint. -/
theorem intersection_iter_eq_inter (A B : Extent) (hA : A.valid) (hB : B.valid)
    (i : Idx) :
    i ∈ (A.intersection B).iter ↔ (i ∈ A.iter ∧ i ∈ B.iter) := by
  rw [Extent.mem_iter_iff_of_valid _ (Extent.valid_intersection A B),
    Extent.mem_iter_iff_of_valid _ hA, Extent.mem_iter_iff_of_valid _ hB,
    Extent.memBox_intersection]

/-- C9 witness: the intersection of [0,2)^3 and [1,3)^3 contains (1,1,1)
and the equivalence holds there. -/
theorem intersection_iter_eq_inter_witness :
    (Extent.new (0, 0, 0) (2, 2, 2)).valid ∧
    (Extent.new (1, 1, 1) (3, 3, 3)).valid ∧
    (((1, 1, 1) : Idx) ∈ ((Extent.new (0, 0, 0) (2, 2, 2)).intersection
        (Extent.new (1, 1, 1) (3, 3, 3))).iter ↔
      (((1, 1, 1) : Idx) ∈ (Extent.new (0, 0, 0) (2, 2, 2)).iter ∧
       ((1, 1, 1) : Idx) ∈ (Extent.new (1, 1, 1) (3, 3, 3)).iter)) :=
  ⟨Or.inl (by decide), Or.inl (by decide),
   intersection_iter_eq_inter _ _ (Or.inl (by decide)) (Or.inl (by decide)) _⟩

theorem FlatPaddedGridCuboid.contains_iff {V : Type} (c : FlatPaddedGridCuboid V)
    (i : Idx) :
    c.contains i = true ↔
      (c.offset.1 ≤ i.1 ∧ i.1 < c.offset.1 + (c.dims.1 : ℤ) ∧
       c.offset.2.1 ≤ i.2.1 ∧ i.2.1 < c.offset.2.1 + (c.dims.2.1 : ℤ) ∧
       c.offset.2.2 ≤ i.2.2 ∧ i.2.2 < c.offset.2.2 + (c.dims.2.2 : ℤ)) := by
  unfold FlatPaddedGridCuboid.contains FlatPaddedGridCuboid.get_beyond_opposite_corner
  simp only [Idx.add, Idx.sub, Dims.toIdx, decide_eq_true_eq]
  constructor
  · rintro ⟨m1, m2, m3, m4, m5, m6⟩
    exact ⟨by omega, by omega, by omega, by omega, by omega, by omega⟩
  · rintro ⟨m1, m2, m3, m4, m5, m6⟩
    exact ⟨by omega, by omega, by omega, by omega, by omega, by omega⟩

theorem FlatPaddedGridCuboid.lin_lt_of_contains {V : Type}
    (c : FlatPaddedGridCuboid V) (i : Idx) (h : c.contains i = true) :
    c.dims.linearize ((i.sub c.offset).toDims) < c.dims.size := by
  rw [FlatPaddedGridCuboid.contains_iff] at h
  obtain ⟨m1, m2, m3, m4, m5, m6⟩ := h
  refine Dims.linearize_lt _ _ ?_ ?_ ?_
  · show ((i.sub c.offset).1).toNat < c.dims.1
    simp only [Idx.sub]
    omega
  · show ((i.sub c.offset).2.1).toNat < c.dims.2.1
    simp only [Idx.sub]
    omega
  · show ((i.sub c.offset).2.2).toNat < c.dims.2.2
    simp only [Idx.sub]
    omega

/-- C8: for every padded cuboid whose buffer has the invariant length
Shape::SIZE, writes and reads inside the half-open box
[offset, offset + dims) succeed and round-trip, while outside that box
get returns the default voxel and set fails with OutOfBounds (returning no
updated cuboid, i.e. buffer and offset unchanged). -/
theorem padded_cuboid_get_set {V : Type} [Inhabited V]
    (c : FlatPaddedGridCuboid V) (i : Idx) (v : V)
    (hlen : c.data.length = c.dims.size) :
    ((c.offset.1 ≤ i.1 ∧ i.1 < c.offset.1 + (c.dims.1 : ℤ) ∧
      c.offset.2.1 ≤ i.2.1 ∧ i.2.1 < c.offset.2.1 + (c.dims.2.1 : ℤ) ∧
      c.offset.2.2 ≤ i.2.2 ∧ i.2.2 < c.offset.2.2 + (c.dims.2.2 : ℤ)) →
      ∃ c', c.set i v = some c' ∧ c'.get i = v ∧
        c'.offset = c.offset ∧ c'.dims = c.dims ∧
        c'.data.length = c.data.length) ∧
    (¬(c.offset.1 ≤ i.1 ∧ i.1 < c.offset.1 + (c.dims.1 : ℤ) ∧
       c.offset.2.1 ≤ i.2.1 ∧ i.2.1 < c.offset.2.1 + (c.dims.2.1 : ℤ) ∧
       c.offset.2.2 ≤ i.2.2 ∧ i.2.2 < c.offset.2.2 + (c.dims.2.2 : ℤ)) →
      c.get i = default ∧ c.set i v = none) := by
  constructor
  · intro hin
    have hc : c.contains i = true := (c.contains_iff i).mpr hin
    have hlt : c.dims.linearize ((i.sub c.offset).toDims) < c.dims.size :=
      c.lin_lt_of_contains i hc
    refine ⟨⟨c.data.set (c.dims.linearize ((i.sub c.offset).toDims)) v, c.offset, c.dims⟩,
      ?_, ?_, rfl, rfl, by simp⟩
    · unfold FlatPaddedGridCuboid.set
      rw [hc]
      simp
    · have hc' : FlatPaddedGridCuboid.contains
          ⟨c.data.set (c.dims.linearize ((i.sub c.offset).toDims)) v, c.offset, c.dims⟩ i
          = true := by
        rw [FlatPaddedGridCuboid.contains_iff]
        exact hin
      unfold FlatPaddedGridCuboid.get
      rw [hc']
      simp only
      rw [List.getD_eq_getElem _ _ (by simp; omega)]
      exact List.getElem_set_self _
  · intro hout
    have hc : c.contains i = false := by
      rcases Bool.eq_false_or_eq_true (c.contains i) with h0 | h0
      · exact absurd ((c.contains_iff i).mp h0) hout
      · exact h0
    constructor
    · unfold FlatPaddedGridCuboid.get
      rw [hc]
      simp
    · unfold FlatPaddedGridCuboid.set
      rw [hc]
      simp

/-- C8 witness: a 2x2x2 cuboid of naturals; (1,1,1) is inside and writes
round-trip, (2,0,0) is outside, reads default and fails to write. -/
theorem padded_cuboid_get_set_witness :
    ((FlatPaddedGridCuboid.new ℕ (0, 0, 0) (2, 2, 2)).data.length
        = Dims.size (2, 2, 2)) ∧
    (∃ c', (FlatPaddedGridCuboid.new ℕ (0, 0, 0) (2, 2, 2)).set (1, 1, 1) 7 = some c' ∧
      c'.get (1, 1, 1) = 7 ∧
      c'.offset = (FlatPaddedGridCuboid.new ℕ (0, 0, 0) (2, 2, 2)).offset ∧
      c'.dims = (FlatPaddedGridCuboid.new ℕ (0, 0, 0) (2, 2, 2)).dims ∧
      c'.data.length = (FlatPaddedGridCuboid.new ℕ (0, 0, 0) (2, 2, 2)).data.length) ∧
    ((FlatPaddedGridCuboid.new ℕ (0, 0, 0) (2, 2, 2)).get (2, 0, 0) = default ∧
     (FlatPaddedGridCuboid.new ℕ (0, 0, 0) (2, 2, 2)).set (2, 0, 0) 7 = none) :=
  ⟨by decide,
   (padded_cuboid_get_set (FlatPaddedGridCuboid.new ℕ (0, 0, 0) (2, 2, 2))
     (1, 1, 1) 7 (by decide)).1 (by decide),
   (padded_cuboid_get_set (FlatPaddedGridCuboid.new ℕ (0, 0, 0) (2, 2, 2))
     (2, 0, 0) 7 (by decide)).2 (by decide)⟩

theorem Extent.iter_length (e : Extent) : e.iter.length = e.get_dimensions.size := by
  simp [Extent.iter]

theorem addOccurrence_head_eq (s : Stamp) (k : ℕ) :
    addOccurrence [(s, k)] s = [(s, k + 1)] := by
  unfold addOccurrence
  simp

theorem foldl_addOccurrence_const (f : Idx → Stamp) (s : Stamp) (l : List Idx)
    (hf : ∀ o ∈ l, f o = s) (k : ℕ) :
    l.foldl (fun acc o => addOccurrence acc (f o)) [(s, k)] = [(s, k + l.length)] := by
  induction l generalizing k with
  | nil => simp
  | cons o rest ih =>
    simp only [List.foldl_cons]
    rw [hf o (by simp), addOccurrence_head_eq,
      ih (fun u hu => hf u (by simp [hu])) (k + 1)]
    simp only [List.length_cons]
    have he : k + 1 + rest.length = k + (rest.length + 1) := by omega
    rw [he]

theorem gather_stamps_const (c : FlatPaddedGridCuboid VoxelId) (sd : Dims) (s : Stamp)
    (hs : ∀ o ∈ (c.get_stamps_extent sd).iter, stampSamples c sd o = s)
    (hne : (c.get_stamps_extent sd).iter ≠ []) :
    gather_stamps c sd = [(s, (c.get_stamps_extent sd).iter.length)] := by
  unfold gather_stamps
  rcases hl : (c.get_stamps_extent sd).iter with _ | ⟨o, rest⟩
  · exact absurd hl hne
  · have ho : stampSamples c sd o = s := hs o (by rw [hl]; simp)
    have hrest : ∀ u ∈ rest, stampSamples c sd u = s := by
      intro u hu
      exact hs u (by rw [hl]; simp [hu])
    simp only [List.foldl_cons, ho]
    have hstart : addOccurrence [] s = [(s, 1)] := rfl
    rw [hstart, foldl_addOccurrence_const _ s rest hrest 1]
    simp only [List.length_cons]
    have he : 1 + rest.length = rest.length + 1 := by omega
    rw [he]

theorem Extent.new_of_lt (a b : Idx) (h1 : a.1 < b.1) (h2 : a.2.1 < b.2.1)
    (h3 : a.2.2 < b.2.2) : Extent.new a b = ⟨a, b⟩ := by
  unfold Extent.new
  rw [if_pos ⟨h1, h2, h3⟩]

/-- C6: for a uniform template (every voxel the same id) and a stamp shape
that fits per axis, gather_stamps returns exactly one distinct stamp (the
uniform window) whose occurrence count is the product over the axes of
(template dimension - stamp dimension + 1). -/
theorem gather_stamps_uniform (td sd : Dims) (off : Idx) (cv : VoxelId)
    (h1 : sd.1 ≤ td.1) (h2 : sd.2.1 ≤ td.2.1) (h3 : sd.2.2 ≤ td.2.2) :
    gather_stamps ⟨List.replicate td.size cv, off, td⟩ sd =
      [(List.replicate sd.size cv,
        (td.1 - sd.1 + 1) * (td.2.1 - sd.2.1 + 1) * (td.2.2 - sd.2.2 + 1))] := by
  obtain ⟨t1, t2, t3⟩ := td
  obtain ⟨s1, s2, s3⟩ := sd
  obtain ⟨o1, o2, o3⟩ := off
  have h1 : s1 ≤ t1 := h1
  have h2 : s2 ≤ t2 := h2
  have h3 : s3 ≤ t3 := h3
  set c : FlatPaddedGridCuboid VoxelId :=
    ⟨List.replicate (Dims.size (t1, t2, t3)) cv, (o1, o2, o3), (t1, t2, t3)⟩ with hc
  have hstop : c.get_stamps_extent (s1, s2, s3) =
      ⟨(o1, o2, o3), (o1 + t1 - s1 + 1, o2 + t2 - s2 + 1, o3 + t3 - s3 + 1)⟩ := by
    unfold FlatPaddedGridCuboid.get_stamps_extent
      FlatPaddedGridCuboid.get_beyond_opposite_corner
    simp only [hc, Idx.add, Idx.sub, Dims.toIdx]
    rw [Extent.new_of_lt _ _ (show (o1 : ℤ) < o1 + t1 - s1 + 1 by omega)
      (show (o2 : ℤ) < o2 + t2 - s2 + 1 by omega)
      (show (o3 : ℤ) < o3 + t3 - s3 + 1 by omega)]
  have hdims : (c.get_stamps_extent (s1, s2, s3)).get_dimensions =
      (t1 - s1 + 1, t2 - s2 + 1, t3 - s3 + 1) := by
    rw [hstop]
    simp only [Extent.get_dimensions, Idx.sub, Idx.toDims]
    refine Prod.ext ?_ (Prod.ext ?_ ?_) <;> simp <;> omega
  have hlen : (c.get_stamps_extent (s1, s2, s3)).iter.length =
      (t1 - s1 + 1) * (t2 - s2 + 1) * (t3 - s3 + 1) := by
    rw [Extent.iter_length, hdims]
    rfl
  have hsamples : ∀ o ∈ (c.get_stamps_extent (s1, s2, s3)).iter,
      stampSamples c (s1, s2, s3) o = List.replicate (Dims.size (s1, s2, s3)) cv := by
    intro o ho
    have hbox : (c.get_stamps_extent (s1, s2, s3)).memBox o := by
      rw [← Extent.mem_iter_iff_of_valid]
      · exact ho
      · rw [hstop]
        exact Or.inl ⟨by show (o1 : ℤ) < o1 + t1 - s1 + 1; omega,
          by show (o2 : ℤ) < o2 + t2 - s2 + 1; omega,
          by show (o3 : ℤ) < o3 + t3 - s3 + 1; omega⟩
    rw [hstop] at hbox
    obtain ⟨q1, q2, q3⟩ := o
    obtain ⟨b1, b2, b3, b4, b5, b6⟩ := hbox
    have b1' : o1 ≤ q1 := b1
    have b2' : q1 < o1 + (t1 : ℤ) - s1 + 1 := b2
    have b3' : o2 ≤ q2 := b3
    have b4' : q2 < o2 + (t2 : ℤ) - s2 + 1 := b4
    have b5' : o3 ≤ q3 := b5
    have b6' : q3 < o3 + (t3 : ℤ) - s3 + 1 := b6
    rw [List.eq_replicate_iff]
    constructor
    · simp [stampSamples]
    · intro b hb
      simp only [stampSamples, List.mem_map, List.mem_range] at hb
      obtain ⟨n, hn, rfl⟩ := hb
      obtain ⟨d1, d2, d3⟩ := Dims.delinearize_lt (s1, s2, s3) n hn
      have d1' : (Dims.delinearize (s1, s2, s3) n).1 < s1 := d1
      have d2' : (Dims.delinearize (s1, s2, s3) n).2.1 < s2 := d2
      have d3' : (Dims.delinearize (s1, s2, s3) n).2.2 < s3 := d3
      have hcont : c.contains (Idx.add (q1, q2, q3)
          (Dims.toIdx (Dims.delinearize (s1, s2, s3) n))) = true := by
        rw [FlatPaddedGridCuboid.contains_iff]
        show (o1 : ℤ) ≤ q1 + ((Dims.delinearize (s1, s2, s3) n).1 : ℤ) ∧
          q1 + ((Dims.delinearize (s1, s2, s3) n).1 : ℤ) < o1 + (t1 : ℤ) ∧
          (o2 : ℤ) ≤ q2 + ((Dims.delinearize (s1, s2, s3) n).2.1 : ℤ) ∧
          q2 + ((Dims.delinearize (s1, s2, s3) n).2.1 : ℤ) < o2 + (t2 : ℤ) ∧
          (o3 : ℤ) ≤ q3 + ((Dims.delinearize (s1, s2, s3) n).2.2 : ℤ) ∧
          q3 + ((Dims.delinearize (s1, s2, s3) n).2.2 : ℤ) < o3 + (t3 : ℤ)
        refine ⟨?_, ?_, ?_, ?_, ?_, ?_⟩ <;> omega
      unfold FlatPaddedGridCuboid.get
      rw [hcont]
      simp only [hc]
      have hlt : Dims.linearize (t1, t2, t3)
          ((Idx.sub (Idx.add (q1, q2, q3) (Dims.toIdx (Dims.delinearize (s1, s2, s3) n)))
            (o1, o2, o3)).toDims) < Dims.size (t1, t2, t3) :=
        c.lin_lt_of_contains _ hcont
      rw [List.getD_eq_getElem _ _ (by simpa using hlt)]
      simp
  rw [gather_stamps_const c (s1, s2, s3) (List.replicate (Dims.size (s1, s2, s3)) cv)
    hsamples ?_, hlen]
  apply List.ne_nil_of_length_pos
  rw [hlen]
  have : 0 < t1 - s1 + 1 := by omega
  have : 0 < t2 - s2 + 1 := by omega
  have : 0 < t3 - s3 + 1 := by omega
  positivity

/-- C6 witness (scenario S1): the uniform 8x8x8 template with 2x2x2 stamps
yields exactly one stamp with occurrence count 7 * 7 * 7 = 343. -/
theorem gather_stamps_uniform_witness :
    (2 ≤ 8 ∧ 2 ≤ 8 ∧ 2 ≤ 8) ∧
    gather_stamps ⟨List.replicate (Dims.size (8, 8, 8)) 0, (0, 0, 0), (8, 8, 8)⟩ (2, 2, 2) =
      [(List.replicate (Dims.size (2, 2, 2)) 0, 343)] :=
  ⟨⟨by decide, by decide, by decide⟩,
   gather_stamps_uniform (8, 8, 8) (2, 2, 2) (0, 0, 0) 0 (by decide) (by decide) (by decide)⟩

theorem foldlMin_decomp (x : Idx × ℚ) (rest : List (Idx × ℚ)) :
    ∃ l1 l2,
      x :: rest = l1 ++ (rest.foldl (fun acc a => if a.2 < acc.2 then a else acc) x) :: l2 ∧
      (∀ p ∈ l1, (rest.foldl (fun acc a => if a.2 < acc.2 then a else acc) x).2 < p.2) ∧
      (∀ p ∈ l2, (rest.foldl (fun acc a => if a.2 < acc.2 then a else acc) x).2 ≤ p.2) := by
  induction rest generalizing x with
  | nil => exact ⟨[], [], by simp, by simp, by simp⟩
  | cons a rest ih =>
    simp only [List.foldl_cons]
    by_cases ha : a.2 < x.2
    · rw [if_pos ha]
      obtain ⟨l1, l2, hdecomp, hl1, hl2⟩ := ih a
      have hra : (rest.foldl (fun acc a => if a.2 < acc.2 then a else acc) a).2 ≤ a.2 := by
        rcases l1 with _ | ⟨h, t⟩
        · rw [List.nil_append] at hdecomp
          injection hdecomp with e1 _
          rw [← e1]
        · rw [List.cons_append] at hdecomp
          injection hdecomp with e1 _
          have := hl1 h (by simp)
          rw [← e1] at this
          exact le_of_lt this
      refine ⟨x :: l1, l2, ?_, ?_, hl2⟩
      · rw [List.cons_append, ← hdecomp]
      · intro p hp
        rcases List.mem_cons.mp hp with rfl | hp
        · exact lt_of_le_of_lt hra ha
        · exact hl1 p hp
    · rw [if_neg ha]
      obtain ⟨l1, l2, hdecomp, hl1, hl2⟩ := ih x
      rcases l1 with _ | ⟨h, t⟩
      · rw [List.nil_append] at hdecomp
        injection hdecomp with e1 e2
        refine ⟨[], a :: rest, ?_, by simp, ?_⟩
        · rw [List.nil_append, ← e1]
        · intro p hp
          rcases List.mem_cons.mp hp with rfl | hp
          · rw [← e1]
            exact le_of_not_lt ha
          · rw [e2] at hp
            exact hl2 p hp
      · rw [List.cons_append] at hdecomp
        injection hdecomp with e1 e2
        refine ⟨x :: a :: t, l2, ?_, ?_, hl2⟩
        · rw [List.cons_append, List.cons_append, ← e2]
        · intro p hp
          rcases List.mem_cons.mp hp with rfl | hp
          · have := hl1 h (by simp)
            rw [← e1] at this
            exact this
          · rcases List.mem_cons.mp hp with rfl | hp
            · have hx := hl1 h (by simp)
              rw [← e1] at hx
              exact lt_of_lt_of_le hx (le_of_not_lt ha)
            · exact hl1 p (by simp [hp])

theorem minByKeyFirst_none_iff (l : List (Idx × ℚ)) :
    minByKeyFirst l = none ↔ l = [] := by
  cases l <;> simp [minByKeyFirst]

theorem minByKeyFirst_some_decomp (l : List (Idx × ℚ)) (r : Idx × ℚ)
    (h : minByKeyFirst l = some r) :
    ∃ l1 l2, l = l1 ++ r :: l2 ∧ (∀ p ∈ l1, r.2 < p.2) ∧ (∀ p ∈ l2, r.2 ≤ p.2) := by
  cases l with
  | nil => simp [minByKeyFirst] at h
  | cons x rest =>
    simp only [minByKeyFirst, Option.some.injEq] at h
    rw [← h]
    exact foldlMin_decomp x rest

theorem openSites_mem_char (stamps : StampColl) (w : Wave) (sd : Dims) (total : ℕ)
    (i : Idx) (h : ℚ) (hm : (i, h) ∈ openSites stamps w sd total) :
    i ∈ (w.get_stamps_extent sd).iter ∧
    get_superposition_pseudo_entropy stamps w sd i total = .opened h := by
  simp only [openSites, List.mem_filterMap] at hm
  obtain ⟨a, ha, hf⟩ := hm
  rcases he : get_superposition_pseudo_entropy stamps w sd a total with _ | _ | hq
  · rw [he] at hf
    simp at hf
  · rw [he] at hf
    simp at hf
  · rw [he] at hf
    simp only [Option.some.injEq, Prod.mk.injEq] at hf
    obtain ⟨rfl, rfl⟩ := hf
    exact ⟨ha, he⟩

/-- C2: find_lowest_pseudo_entropy returns None exactly when no stamp
offset inside the wave's stamps-extent classifies as Open; otherwise it
returns an Open offset whose pseudo-entropy H is minimal, and that offset
is the first minimal one in row-major iteration order (every Open site
listed before it has strictly larger H, every one after it has H at least
as large).  The total is the collection's positive total occurrence count,
as the claim requires; the f32 division of the sources is modelled as the
exact rational quotient. -/
theorem find_lowest_pseudo_entropy_spec (w : Wave) (stamps : StampColl) (sd : Dims)
    (total : ℕ) (htot : total = get_total_occurrences stamps) (hpos : 0 < total) :
    (find_lowest_pseudo_entropy w stamps sd total = none ↔
      ∀ i ∈ (w.get_stamps_extent sd).iter, ∀ h,
        get_superposition_pseudo_entropy stamps w sd i total ≠ .opened h) ∧
    (∀ i, find_lowest_pseudo_entropy w stamps sd total = some i →
      i ∈ (w.get_stamps_extent sd).iter ∧
      ∃ h l1 l2,
        get_superposition_pseudo_entropy stamps w sd i total = .opened h ∧
        openSites stamps w sd total = l1 ++ (i, h) :: l2 ∧
        (∀ p ∈ l1, h < p.2) ∧ (∀ p ∈ l2, h ≤ p.2)) := by
  constructor
  · unfold find_lowest_pseudo_entropy
    rw [Option.map_eq_none', minByKeyFirst_none_iff]
    unfold openSites
    rw [List.filterMap_eq_nil_iff]
    constructor
    · intro hall i hi h
      have := hall i hi
      intro hcl
      rw [hcl] at this
      simp at this
    · intro hall a ha
      rcases he : get_superposition_pseudo_entropy stamps w sd a total with _ | _ | hq
      · simp
      · simp
      · exact absurd he (hall a ha hq)
  · intro i hi
    unfold find_lowest_pseudo_entropy at hi
    rw [Option.map_eq_some'] at hi
    obtain ⟨r, hr, hfst⟩ := hi
    obtain ⟨l1, l2, hdec, hl1, hl2⟩ := minByKeyFirst_some_decomp _ r hr
    have hmem : r ∈ openSites stamps w sd total := by
      rw [hdec]
      simp
    have hre : r = (i, r.2) := by
      rw [← hfst]
    obtain ⟨hiter, hcl⟩ := openSites_mem_char stamps w sd total i r.2 (hre ▸ hmem)
    refine ⟨hiter, r.2, l1, l2, hcl, ?_, hl1, hl2⟩
    rw [← hre]
    exact hdec

/-- C2 witness: the characterization applied to the one-cell wave holding
only(1) over the two-stamp collection with total occurrences 3. -/
theorem find_lowest_pseudo_entropy_spec_witness :
    ((3 : ℕ) = get_total_occurrences c5Stamps ∧ (0 : ℕ) < 3) ∧
    ((find_lowest_pseudo_entropy c5Wave c5Stamps (1, 1, 1) 3 = none ↔
      ∀ i ∈ (c5Wave.get_stamps_extent (1, 1, 1)).iter, ∀ h,
        get_superposition_pseudo_entropy c5Stamps c5Wave (1, 1, 1) i 3 ≠ .opened h) ∧
    (∀ i, find_lowest_pseudo_entropy c5Wave c5Stamps (1, 1, 1) 3 = some i →
      i ∈ (c5Wave.get_stamps_extent (1, 1, 1)).iter ∧
      ∃ h l1 l2,
        get_superposition_pseudo_entropy c5Stamps c5Wave (1, 1, 1) i 3 = .opened h ∧
        openSites c5Stamps c5Wave (1, 1, 1) 3 = l1 ++ (i, h) :: l2 ∧
        (∀ p ∈ l1, h < p.2) ∧ (∀ p ∈ l2, h ≤ p.2))) :=
  ⟨⟨by decide, by decide⟩,
   find_lowest_pseudo_entropy_spec c5Wave c5Stamps (1, 1, 1) 3 (by decide) (by decide)⟩

theorem outcomesLoop_one_eq (w : Wave) (sd : Dims) (o : Idx) (s : Stamp)
    (l : List (Stamp × ℕ)) :
    outcomesLoop w sd o l (.one s) =
      if l.filter (fun p => viewAllows w sd o p.1) = [] then
        CollapseOutcomes.one s
      else CollapseOutcomes.multiple := by
  induction l with
  | nil => rfl
  | cons p rest ih =>
    show (if viewAllows w sd o p.1 then CollapseOutcomes.multiple
        else outcomesLoop w sd o rest (.one s)) = _
    by_cases hp : viewAllows w sd o p.1 = true
    · rw [if_pos hp]
      rw [List.filter_cons]
      simp [hp]
    · rw [if_neg hp, ih]
      rw [Bool.not_eq_true] at hp
      rw [List.filter_cons, hp]
      simp

theorem get_collapse_outcomes_eq_filter (stamps : StampColl) (w : Wave) (sd : Dims)
    (o : Idx) :
    get_collapse_outcomes stamps w sd o =
      match stamps.filter (fun p => viewAllows w sd o p.1) with
      | [] => CollapseOutcomes.none
      | [p] => CollapseOutcomes.one p.1
      | _ :: _ :: _ => CollapseOutcomes.multiple := by
  unfold get_collapse_outcomes
  induction stamps with
  | nil => rfl
  | cons p rest ih =>
    show (if viewAllows w sd o p.1 then outcomesLoop w sd o rest (.one p.1)
        else outcomesLoop w sd o rest .none) = _
    by_cases hp : viewAllows w sd o p.1
    · rw [if_pos hp, outcomesLoop_one_eq]
      simp only [List.filter_cons, if_pos hp]
      cases hfil : rest.filter (fun q => viewAllows w sd o q.1) with
      | nil => simp [hfil]
      | cons a t => simp [hfil]
    · rw [if_neg hp, ih]
      simp only [List.filter_cons, if_neg hp]

theorem get_collapse_outcomes_perm (stamps stamps' : StampColl)
    (hp : stamps.Perm stamps') (w : Wave) (sd : Dims) (o : Idx) :
    get_collapse_outcomes stamps w sd o = get_collapse_outcomes stamps' w sd o := by
  rw [get_collapse_outcomes_eq_filter, get_collapse_outcomes_eq_filter]
  have hfp : (stamps.filter (fun p => viewAllows w sd o p.1)).Perm
      (stamps'.filter (fun p => viewAllows w sd o p.1)) := hp.filter _
  cases h1 : stamps.filter (fun p => viewAllows w sd o p.1) with
  | nil =>
    rw [h1] at hfp
    rw [hfp.nil_eq.symm]
  | cons a t =>
    cases t with
    | nil =>
      rw [h1] at hfp
      rw [List.singleton_perm.mp hfp]
    | cons b t2 =>
      rw [h1] at hfp
      have hlen := hfp.length_eq
      cases h2 : stamps'.filter (fun p => viewAllows w sd o p.1) with
      | nil =>
        rw [h2] at hlen
        simp at hlen
      | cons a2 t3 =>
        cases t3 with
        | nil =>
          rw [h2] at hlen
          simp at hlen
        | cons b2 t4 => rfl

/-- C7: the propagation pipeline is deterministic.  Stamp gathering and
every wave operation are pure functions in this embedding; the only
run-to-run variation of the Rust pipeline is the iteration order of the
gather HashMap, i.e. the order of the stamp collection, and every wave
method (set, limit, limit_stamp, collapse, via the joint dispatcher) gives
bit-identical waves for any two permutations of the same stamp
collection. -/
theorem propagation_stamp_order_invariant (D : ℕ) (sd : Dims)
    (stamps stamps' : StampColl) (hp : stamps.Perm stamps') (fuel : ℕ)
    (c : WaveCall) :
    waveExec D sd stamps fuel c = waveExec D sd stamps' fuel c := by
  induction fuel generalizing c with
  | zero => rfl
  | succ fuel ih =>
    have hout : ∀ (w : Wave) (o : Idx),
        get_collapse_outcomes stamps w sd o = get_collapse_outcomes stamps' w sd o :=
      fun w o => get_collapse_outcomes_perm stamps stamps' hp w sd o
    cases c with
    | set w index value =>
      simp only [waveExec, ih]
    | limitCells w index stamp ns =>
      cases ns with
      | nil => simp only [waveExec]
      | cons n rest => simp only [waveExec, ih]
    | limitStamp w index stamp =>
      simp only [waveExec, ih]
    | collapseSites w sites =>
      cases sites with
      | nil => simp only [waveExec]
      | cons o rest => simp only [waveExec, ih, hout]
    | collapse w extent =>
      simp only [waveExec, ih]

/-- C7 witness: the two orderings of the two-stamp collection produce the
same wave from the same set call. -/
theorem propagation_stamp_order_invariant_witness :
    c4Stamps.Perm [([1], 1), ([0], 1)] ∧
    waveExec 2 (1, 1, 1) c4Stamps 10 (.set c4Wave (0, 0, 0) Superposition.FREE) =
      waveExec 2 (1, 1, 1) [([1], 1), ([0], 1)] 10
        (.set c4Wave (0, 0, 0) Superposition.FREE) :=
  ⟨by decide,
   propagation_stamp_order_invariant 2 (1, 1, 1) c4Stamps [([1], 1), ([0], 1)]
     (by decide) 10 (.set c4Wave (0, 0, 0) Superposition.FREE)⟩

theorem fpgcSet_fields {V : Type} (c : FlatPaddedGridCuboid V) (i : Idx) (v : V)
    (c' : FlatPaddedGridCuboid V) (h : c.set i v = some c') :
    c'.offset = c.offset ∧ c'.dims = c.dims ∧ c'.data.length = c.data.length := by
  unfold FlatPaddedGridCuboid.set at h
  split at h
  · rw [Option.some.injEq] at h
    rw [← h]
    exact ⟨rfl, rfl, by simp⟩
  · exact absurd h (by simp)

theorem contains_of_fields {V : Type} (c c' : FlatPaddedGridCuboid V)
    (h1 : c'.offset = c.offset) (h2 : c'.dims = c.dims) (i : Idx) :
    c'.contains i = c.contains i := by
  unfold FlatPaddedGridCuboid.contains FlatPaddedGridCuboid.get_beyond_opposite_corner
  rw [h1, h2]

theorem waveExec_preserves (D : ℕ) (sd : Dims) (stamps : StampColl) :
    ∀ (fuel : ℕ) (c : WaveCall) (w' : Wave),
      waveExec D sd stamps fuel c = .ok w' →
      w'.offset = (callWave c).offset ∧ w'.dims = (callWave c).dims ∧
      w'.data.length = (callWave c).data.length := by
  intro fuel
  induction fuel with
  | zero =>
    intro c w' h
    exact absurd h (by simp [waveExec])
  | succ fuel ih =>
    intro c w' h
    cases c with
    | set w index value =>
      simp only [waveExec] at h
      split at h
      · cases h
        exact ⟨rfl, rfl, rfl⟩
      · split at h
        · cases h
        · rename_i w1 hset
          split at h
          · cases h
          · cases h
          · cases h
          · rename_i w2 hcol
            cases h
            obtain ⟨p1, p2, p3⟩ := ih _ _ hcol
            obtain ⟨q1, q2, q3⟩ := fpgcSet_fields w index value w1 hset
            exact ⟨p1.trans q1, p2.trans q2, p3.trans q3⟩
    | limitCells w index stamp ns =>
      cases ns with
      | nil =>
        simp only [waveExec] at h
        cases h
        exact ⟨rfl, rfl, rfl⟩
      | cons n rest =>
        simp only [waveExec] at h
        split at h
        · split at h
          · cases h
          · cases h
          · cases h
          · rename_i w1 hset
            obtain ⟨p1, p2, p3⟩ := ih _ _ h
            obtain ⟨q1, q2, q3⟩ := ih _ _ hset
            exact ⟨p1.trans q1, p2.trans q2, p3.trans q3⟩
        · exact ih (WaveCall.limitCells w index stamp rest) w' h
    | limitStamp w index stamp =>
      simp only [waveExec] at h
      exact ih (WaveCall.limitCells w index stamp (List.range sd.size)) w' h
    | collapseSites w sites =>
      cases sites with
      | nil =>
        simp only [waveExec] at h
        cases h
        exact ⟨rfl, rfl, rfl⟩
      | cons o rest =>
        simp only [waveExec] at h
        split at h
        · rename_i stamp hone
          split at h
          · cases h
          · cases h
          · cases h
          · rename_i w1 hls
            obtain ⟨p1, p2, p3⟩ := ih _ _ h
            obtain ⟨q1, q2, q3⟩ := ih _ _ hls
            exact ⟨p1.trans q1, p2.trans q2, p3.trans q3⟩
        · exact ih (WaveCall.collapseSites w rest) w' h
    | collapse w extent =>
      simp only [waveExec] at h
      exact ih (WaveCall.collapseSites w
        ((extent.intersection (w.get_stamps_extent sd)).iter)) w' h

theorem windowInBounds_of_mem_sites (w : Wave) (sd : Dims) (ext : Extent) (o : Idx)
    (ho : o ∈ (ext.intersection (w.get_stamps_extent sd)).iter) :
    windowInBounds w sd o := by
  have hbox := (Extent.mem_iter_iff_of_valid _ (Extent.valid_intersection _ _) o).mp ho
  rw [Extent.memBox_intersection] at hbox
  have hse := hbox.2
  rw [show w.get_stamps_extent sd = Extent.new w.offset
      ((w.get_beyond_opposite_corner.sub (Dims.toIdx sd)).add (1, 1, 1)) from rfl,
    Extent.memBox_new] at hse
  obtain ⟨q1, q2, q3⟩ := o
  have a1 : w.offset.1 ≤ q1 := hse.1
  have a2 : q1 < w.offset.1 + (w.dims.1 : ℤ) - sd.1 + 1 := hse.2.1
  have a3 : w.offset.2.1 ≤ q2 := hse.2.2.1
  have a4 : q2 < w.offset.2.1 + (w.dims.2.1 : ℤ) - sd.2.1 + 1 := hse.2.2.2.1
  have a5 : w.offset.2.2 ≤ q3 := hse.2.2.2.2.1
  have a6 : q3 < w.offset.2.2 + (w.dims.2.2 : ℤ) - sd.2.2 + 1 := hse.2.2.2.2.2
  intro n hn
  obtain ⟨d1, d2, d3⟩ := Dims.delinearize_lt sd n hn
  rw [FlatPaddedGridCuboid.contains_iff]
  show w.offset.1 ≤ q1 + ((sd.delinearize n).1 : ℤ) ∧
    q1 + ((sd.delinearize n).1 : ℤ) < w.offset.1 + (w.dims.1 : ℤ) ∧
    w.offset.2.1 ≤ q2 + ((sd.delinearize n).2.1 : ℤ) ∧
    q2 + ((sd.delinearize n).2.1 : ℤ) < w.offset.2.1 + (w.dims.2.1 : ℤ) ∧
    w.offset.2.2 ≤ q3 + ((sd.delinearize n).2.2 : ℤ) ∧
    q3 + ((sd.delinearize n).2.2 : ℤ) < w.offset.2.2 + (w.dims.2.2 : ℤ)
  refine ⟨?_, ?_, ?_, ?_, ?_, ?_⟩ <;> omega

theorem set_some_of_contains (w : Wave) (i : Idx) (v : Mask)
    (hc : w.contains i = true) : w.set i v ≠ none := by
  unfold FlatPaddedGridCuboid.set
  rw [hc]
  simp

theorem waveExec_no_panic_aux (D : ℕ) (sd : Dims) (stamps : StampColl) :
    ∀ fuel : ℕ,
    (∀ w sites, waveExec D sd stamps fuel (.collapseSites w sites) ≠ .oob) ∧
    (∀ w ext, waveExec D sd stamps fuel (.collapse w ext) ≠ .oob) ∧
    (∀ w i v, w.contains i = true →
      waveExec D sd stamps fuel (.set w i v) ≠ .oob) ∧
    (∀ w i v, waveExec D sd stamps fuel (.set w i v) ≠ .panicked) ∧
    (∀ w i s ns, (∀ n ∈ ns, w.contains (i.add (Dims.toIdx (sd.delinearize n))) = true) →
      waveExec D sd stamps fuel (.limitCells w i s ns) ≠ .panicked ∧
      waveExec D sd stamps fuel (.limitCells w i s ns) ≠ .oob) ∧
    (∀ w i s, windowInBounds w sd i →
      waveExec D sd stamps fuel (.limitStamp w i s) ≠ .panicked ∧
      waveExec D sd stamps fuel (.limitStamp w i s) ≠ .oob) ∧
    (∀ w sites, (∀ o ∈ sites, windowInBounds w sd o) →
      waveExec D sd stamps fuel (.collapseSites w sites) ≠ .panicked) ∧
    (∀ w ext, waveExec D sd stamps fuel (.collapse w ext) ≠ .panicked) := by
  intro fuel
  induction fuel with
  | zero =>
    refine ⟨fun w sites => by simp [waveExec],
      fun w ext => by simp [waveExec],
      fun w i v h => by simp [waveExec],
      fun w i v => by simp [waveExec],
      fun w i s ns h => ⟨by simp [waveExec], by simp [waveExec]⟩,
      fun w i s h => ⟨by simp [waveExec], by simp [waveExec]⟩,
      fun w sites h => by simp [waveExec],
      fun w ext => by simp [waveExec]⟩
  | succ fuel ih =>
    obtain ⟨ih1, ih2, ih3, ih4, ih5, ih6, ih7, ih8⟩ := ih
    have g1 : ∀ w sites,
        waveExec D sd stamps (fuel + 1) (.collapseSites w sites) ≠ .oob := by
      intro w sites
      cases sites with
      | nil => simp [waveExec]
      | cons o rest =>
        show (match get_collapse_outcomes stamps w sd o with
          | .one stamp =>
            match waveExec D sd stamps fuel (.limitStamp w o stamp) with
            | .fuelOut => WaveRes.fuelOut
            | .panicked => WaveRes.panicked
            | .oob => WaveRes.panicked
            | .ok w1 => waveExec D sd stamps fuel (.collapseSites w1 rest)
          | _ => waveExec D sd stamps fuel (.collapseSites w rest)) ≠ .oob
        rcases get_collapse_outcomes stamps w sd o with stamp | _ | _
        · rcases hres : waveExec D sd stamps fuel (.limitStamp w o stamp) with _ | _ | _ | w1
          · simp [hres]
          · simp [hres]
          · simp [hres]
          · simp only [hres]
            exact ih1 w1 rest
        · exact ih1 w rest
        · exact ih1 w rest
    have g2 : ∀ w ext, waveExec D sd stamps (fuel + 1) (.collapse w ext) ≠ .oob := by
      intro w ext
      show waveExec D sd stamps fuel
        (.collapseSites w ((ext.intersection (w.get_stamps_extent sd)).iter)) ≠ .oob
      exact ih1 _ _
    have g3 : ∀ w i v, w.contains i = true →
        waveExec D sd stamps (fuel + 1) (.set w i v) ≠ .oob := by
      intro w i v hc
      show (if w.get i = v then WaveRes.ok w else
        match w.set i v with
        | none => WaveRes.oob
        | some w1 =>
          match waveExec D sd stamps fuel
              (.collapse w1 (w1.get_extent.get_stamps_containing sd i)) with
          | .fuelOut => WaveRes.fuelOut
          | .panicked => WaveRes.panicked
          | .oob => WaveRes.oob
          | .ok w2 => WaveRes.ok w2) ≠ .oob
      by_cases he : w.get i = v
      · rw [if_pos he]
        simp
      · rw [if_neg he]
        rcases hset : w.set i v with _ | w1
        · exact absurd hset (set_some_of_contains w i v hc)
        · rcases hres : waveExec D sd stamps fuel
              (.collapse w1 (w1.get_extent.get_stamps_containing sd i)) with _ | _ | _ | w2
          · simp [hset, hres]
          · simp [hset, hres]
          · exact absurd hres (ih2 _ _)
          · simp [hset, hres]
    have g4 : ∀ w i v, waveExec D sd stamps (fuel + 1) (.set w i v) ≠ .panicked := by
      intro w i v
      show (if w.get i = v then WaveRes.ok w else
        match w.set i v with
        | none => WaveRes.oob
        | some w1 =>
          match waveExec D sd stamps fuel
              (.collapse w1 (w1.get_extent.get_stamps_containing sd i)) with
          | .fuelOut => WaveRes.fuelOut
          | .panicked => WaveRes.panicked
          | .oob => WaveRes.oob
          | .ok w2 => WaveRes.ok w2) ≠ .panicked
      by_cases he : w.get i = v
      · rw [if_pos he]
        simp
      · rw [if_neg he]
        rcases hset : w.set i v with _ | w1
        · simp [hset]
        · rcases hres : waveExec D sd stamps fuel
              (.collapse w1 (w1.get_extent.get_stamps_containing sd i)) with _ | _ | _ | w2
          · simp [hset, hres]
          · exact absurd hres (ih8 _ _)
          · simp [hset, hres]
          · simp [hset, hres]
    have g5 : ∀ w i s ns,
        (∀ n ∈ ns, w.contains (i.add (Dims.toIdx (sd.delinearize n))) = true) →
        waveExec D sd stamps (fuel + 1) (.limitCells w i s ns) ≠ .panicked ∧
        waveExec D sd stamps (fuel + 1) (.limitCells w i s ns) ≠ .oob := by
      intro w i s ns hns
      cases ns with
      | nil => exact ⟨by simp [waveExec], by simp [waveExec]⟩
      | cons n rest =>
        show (if Superposition.only D (s.getD n 0) ≠ w.get (i.add (Dims.toIdx (sd.delinearize n))) then
            match waveExec D sd stamps fuel
                (.set w (i.add (Dims.toIdx (sd.delinearize n))) (Superposition.only D (s.getD n 0))) with
            | .fuelOut => WaveRes.fuelOut
            | .panicked => WaveRes.panicked
            | .oob => WaveRes.oob
            | .ok w1 => waveExec D sd stamps fuel (.limitCells w1 i s rest)
          else waveExec D sd stamps fuel (.limitCells w i s rest)) ≠ .panicked ∧
          (if Superposition.only D (s.getD n 0) ≠ w.get (i.add (Dims.toIdx (sd.delinearize n))) then
            match waveExec D sd stamps fuel
                (.set w (i.add (Dims.toIdx (sd.delinearize n))) (Superposition.only D (s.getD n 0))) with
            | .fuelOut => WaveRes.fuelOut
            | .panicked => WaveRes.panicked
            | .oob => WaveRes.oob
            | .ok w1 => waveExec D sd stamps fuel (.limitCells w1 i s rest)
          else waveExec D sd stamps fuel (.limitCells w i s rest)) ≠ .oob
        have hcn : w.contains (i.add (Dims.toIdx (sd.delinearize n))) = true :=
          hns n (by simp)
        by_cases hch : Superposition.only D (s.getD n 0)
            ≠ w.get (i.add (Dims.toIdx (sd.delinearize n)))
        · rw [if_pos hch]
          rcases hres : waveExec D sd stamps fuel
              (.set w (i.add (Dims.toIdx (sd.delinearize n)))
                (Superposition.only D (s.getD n 0))) with _ | _ | _ | w1
          · exact ⟨by simp [hres], by simp [hres]⟩
          · exact absurd hres (ih4 _ _ _)
          · exact absurd hres (ih3 _ _ _ hcn)
          · obtain ⟨p1, p2, _⟩ := waveExec_preserves D sd stamps fuel _ _ hres
            have hrest : ∀ m ∈ rest,
                w1.contains (i.add (Dims.toIdx (sd.delinearize m))) = true := by
              intro m hm
              rw [contains_of_fields w w1 p1 p2]
              exact hns m (by simp [hm])
            exact ih5 w1 i s rest hrest
        · rw [if_neg hch]
          exact ih5 w i s rest (fun m hm => hns m (by simp [hm]))
    have g6 : ∀ w i s, windowInBounds w sd i →
        waveExec D sd stamps (fuel + 1) (.limitStamp w i s) ≠ .panicked ∧
        waveExec D sd stamps (fuel + 1) (.limitStamp w i s) ≠ .oob := by
      intro w i s hw
      show waveExec D sd stamps fuel (.limitCells w i s (List.range sd.size)) ≠ .panicked ∧
        waveExec D sd stamps fuel (.limitCells w i s (List.range sd.size)) ≠ .oob
      exact ih5 w i s _ (fun n hn => hw n (List.mem_range.mp hn))
    have g7 : ∀ w sites, (∀ o ∈ sites, windowInBounds w sd o) →
        waveExec D sd stamps (fuel + 1) (.collapseSites w sites) ≠ .panicked := by
      intro w sites hsites
      cases sites with
      | nil => simp [waveExec]
      | cons o rest =>
        show (match get_collapse_outcomes stamps w sd o with
          | .one stamp =>
            match waveExec D sd stamps fuel (.limitStamp w o stamp) with
            | .fuelOut => WaveRes.fuelOut
            | .panicked => WaveRes.panicked
            | .oob => WaveRes.panicked
            | .ok w1 => waveExec D sd stamps fuel (.collapseSites w1 rest)
          | _ => waveExec D sd stamps fuel (.collapseSites w rest)) ≠ .panicked
        rcases get_collapse_outcomes stamps w sd o with stamp | _ | _
        · obtain ⟨hnp, hno⟩ := ih6 w o stamp (hsites o (by simp))
          rcases hres : waveExec D sd stamps fuel (.limitStamp w o stamp) with _ | _ | _ | w1
          · simp [hres]
          · exact absurd hres hnp
          · exact absurd hres hno
          · obtain ⟨p1, p2, _⟩ := waveExec_preserves D sd stamps fuel _ _ hres
            have hrest : ∀ u ∈ rest, windowInBounds w1 sd u := by
              intro u hu n hn
              rw [contains_of_fields w w1 p1 p2]
              exact hsites u (by simp [hu]) n hn
            simp only [hres]
            exact ih7 w1 rest hrest
        · exact ih7 w rest (fun u hu => hsites u (by simp [hu]))
        · exact ih7 w rest (fun u hu => hsites u (by simp [hu]))
    have g8 : ∀ w ext, waveExec D sd stamps (fuel + 1) (.collapse w ext) ≠ .panicked := by
      intro w ext
      show waveExec D sd stamps fuel
        (.collapseSites w ((ext.intersection (w.get_stamps_extent sd)).iter)) ≠ .panicked
      exact ih7 w _ (fun o ho => windowInBounds_of_mem_sites w sd ext o ho)
    exact ⟨g1, g2, g3, g4, g5, g6, g7, g8⟩

/-- C10: Naive::collapse never hits the unwrap panic: every limit_stamp it
issues is at an offset of the clamped stamps-extent, whose window lies
entirely inside the wave cuboid, so every inner write is in bounds and
limit_stamp returns Ok rather than OutOfBounds, for every fuel, wave,
extent and stamp collection. -/
theorem collapse_never_panics (D : ℕ) (sd : Dims) (stamps : StampColl) (fuel : ℕ)
    (w : Wave) (ext : Extent) :
    waveCollapse D sd stamps fuel w ext ≠ .panicked :=
  (waveExec_no_panic_aux D sd stamps fuel).2.2.2.2.2.2.2 w ext

theorem getD_set_spec {α : Type} (l : List α) (m k : ℕ) (v d : α) :
    (l.set m v).getD k d = if k = m ∧ m < l.length then v else l.getD k d := by
  induction l generalizing m k with
  | nil => simp
  | cons a t ih =>
    cases m with
    | zero =>
      cases k with
      | zero => simp
      | succ k => simp
    | succ m =>
      cases k with
      | zero => simp
      | succ k =>
        simp only [List.set_cons_succ, List.getD_cons_succ, List.length_cons, ih]
        by_cases hc : k = m ∧ m < t.length
        · rw [if_pos hc, if_pos (by omega)]
        · rw [if_neg hc, if_neg (by omega)]

theorem lin_inj_of_contains {V : Type} (c : FlatPaddedGridCuboid V) (i j : Idx)
    (hi : c.contains i = true) (hj : c.contains j = true)
    (hlin : c.dims.linearize ((i.sub c.offset).toDims) =
      c.dims.linearize ((j.sub c.offset).toDims)) :
    i = j := by
  rw [FlatPaddedGridCuboid.contains_iff] at hi hj
  obtain ⟨i1, i2, i3⟩ := i
  obtain ⟨j1, j2, j3⟩ := j
  have a1 : c.offset.1 ≤ i1 := hi.1
  have a2 : i1 < c.offset.1 + (c.dims.1 : ℤ) := hi.2.1
  have a3 : c.offset.2.1 ≤ i2 := hi.2.2.1
  have a4 : i2 < c.offset.2.1 + (c.dims.2.1 : ℤ) := hi.2.2.2.1
  have a5 : c.offset.2.2 ≤ i3 := hi.2.2.2.2.1
  have a6 : i3 < c.offset.2.2 + (c.dims.2.2 : ℤ) := hi.2.2.2.2.2
  have b1 : c.offset.1 ≤ j1 := hj.1
  have b2 : j1 < c.offset.1 + (c.dims.1 : ℤ) := hj.2.1
  have b3 : c.offset.2.1 ≤ j2 := hj.2.2.1
  have b4 : j2 < c.offset.2.1 + (c.dims.2.1 : ℤ) := hj.2.2.2.1
  have b5 : c.offset.2.2 ≤ j3 := hj.2.2.2.2.1
  have b6 : j3 < c.offset.2.2 + (c.dims.2.2 : ℤ) := hj.2.2.2.2.2
  have e1 := Dims.delinearize_linearize c.dims ((Idx.sub (i1, i2, i3) c.offset).toDims)
    (by show (i1 - c.offset.1).toNat < c.dims.1; omega)
    (by show (i2 - c.offset.2.1).toNat < c.dims.2.1; omega)
    (by show (i3 - c.offset.2.2).toNat < c.dims.2.2; omega)
  have e2 := Dims.delinearize_linearize c.dims ((Idx.sub (j1, j2, j3) c.offset).toDims)
    (by show (j1 - c.offset.1).toNat < c.dims.1; omega)
    (by show (j2 - c.offset.2.1).toNat < c.dims.2.1; omega)
    (by show (j3 - c.offset.2.2).toNat < c.dims.2.2; omega)
  rw [hlin] at e1
  have e3 : ((Idx.sub (i1, i2, i3) c.offset).toDims) =
      ((Idx.sub (j1, j2, j3) c.offset).toDims) := e1.symm.trans e2
  have f1 : (i1 - c.offset.1).toNat = (j1 - c.offset.1).toNat := congrArg Prod.fst e3
  have f2 : (i2 - c.offset.2.1).toNat = (j2 - c.offset.2.1).toNat :=
    congrArg (fun p => p.2.1) e3
  have f3 : (i3 - c.offset.2.2).toNat = (j3 - c.offset.2.2).toNat :=
    congrArg (fun p => p.2.2) e3
  have g1 : i1 = j1 := by omega
  have g2 : i2 = j2 := by omega
  have g3 : i3 = j3 := by omega
  rw [g1, g2, g3]

theorem fpgcSet_data {V : Type} (c : FlatPaddedGridCuboid V) (i : Idx) (v : V)
    (c' : FlatPaddedGridCuboid V) (h : c.set i v = some c') :
    c.contains i = true ∧
    c'.data = c.data.set (c.dims.linearize ((i.sub c.offset).toDims)) v := by
  unfold FlatPaddedGridCuboid.set at h
  split at h
  · rw [Option.some.injEq] at h
    refine ⟨by assumption, ?_⟩
    rw [← h]
  · exact absurd h (by simp)

theorem get_set_ne {V : Type} [Inhabited V] (c c' : FlatPaddedGridCuboid V)
    (i : Idx) (v : V) (hset : c.set i v = some c') (j : Idx) (hne : j ≠ i) :
    c'.get j = c.get j := by
  obtain ⟨hci, hdata⟩ := fpgcSet_data c i v c' hset
  obtain ⟨ho, hd, _⟩ := fpgcSet_fields c i v c' hset
  unfold FlatPaddedGridCuboid.get
  rw [contains_of_fields c c' ho hd j, hdata, ho, hd]
  by_cases hcj : c.contains j = true
  · rw [if_pos hcj, if_pos hcj, getD_set_spec]
    rw [if_neg (fun hc => hne (lin_inj_of_contains c j i hcj hci hc.1))]
  · rw [if_neg hcj, if_neg hcj]

theorem get_set_self {V : Type} [Inhabited V] (c c' : FlatPaddedGridCuboid V)
    (i : Idx) (v : V) (hset : c.set i v = some c') :
    c'.get i = v ∨ c'.get i = c.get i := by
  obtain ⟨hci, hdata⟩ := fpgcSet_data c i v c' hset
  obtain ⟨ho, hd, _⟩ := fpgcSet_fields c i v c' hset
  unfold FlatPaddedGridCuboid.get
  rw [contains_of_fields c c' ho hd i, hdata, ho, hd, if_pos hci, if_pos hci,
    getD_set_spec]
  by_cases hl : c.dims.linearize ((i.sub c.offset).toDims) < c.data.length
  · left
    rw [if_pos ⟨rfl, hl⟩]
  · right
    rw [if_neg (fun hc => hl hc.2)]

theorem allows_eq_not_testBit (m : Mask) (v : ℕ) :
    Superposition.allows m v = !(m.testBit v) := by
  unfold Superposition.allows
  rw [Nat.shiftLeft_eq, one_mul, Nat.and_two_pow]
  cases h : m.testBit v
  · simp
  · simp [pow_ne_zero]

theorem testBit_lt_of_impossible (D k : ℕ) (hD : D ≤ 64)
    (h : (Superposition.impossible D).testBit k = true) : k < 64 := by
  by_contra hk
  have h64 : 64 ≤ k := by omega
  have hsmall : Superposition.impossible D ≤ 255 := by
    unfold Superposition.impossible
    rw [Nat.shiftLeft_eq]
    have h4 : (2 : ℕ) ^ 2 = 4 := by norm_num
    rw [h4]
    show D * 4 - 1 ≤ 255
    omega
  have hlt : Superposition.impossible D < 2 ^ k :=
    lt_of_le_of_lt hsmall (lt_of_lt_of_le (by norm_num) (Nat.pow_le_pow_right (by norm_num) h64))
  rw [Nat.testBit_lt_two_pow hlt] at h
  cases h

theorem compl_bit_aux : ∀ v k : Fin 64, k.val ≠ v.val →
    ((2 ^ 64 - 1) - (1 <<< v.val)).testBit k.val = true := by decide

theorem maskLe_only_of (D : ℕ) (v : VoxelId) (m : Mask) (hD : D ≤ 64) (hv : v < 64)
    (hm : maskLe m (Superposition.impossible D)) (hbit : m.testBit v = false) :
    maskLe m (Superposition.only D v) := by
  intro k hk
  have hik := hm k hk
  have hk64 : k < 64 := testBit_lt_of_impossible D k hD hik
  have hkv : k ≠ v := by
    intro he
    rw [he, hbit] at hk
    cases hk
  unfold Superposition.only
  rw [Nat.testBit_land, hik, Bool.true_and]
  exact compl_bit_aux ⟨v, hv⟩ ⟨k, hk64⟩ hkv

theorem viewAllows_antitone (w w' : Wave) (sd : Dims) (o : Idx) (s : Stamp)
    (hle : wavePointwiseLe w w') (h : viewAllows w' sd o s = true) :
    viewAllows w sd o s = true := by
  unfold viewAllows at h ⊢
  rw [List.all_eq_true] at h ⊢
  intro n hn
  have hh := h n hn
  rw [allows_eq_not_testBit, Bool.not_eq_true'] at hh ⊢
  cases hb : (w.get (o.add (Dims.toIdx (sd.delinearize n)))).testBit (s.getD n 0)
  · rfl
  · rw [hle _ _ hb] at hh
    cases hh

theorem get_distribution_anti (stamps : StampColl) (w w' : Wave) (sd : Dims)
    (o : Idx) (hle : wavePointwiseLe w w') :
    (get_distribution stamps w' sd o).length ≤ (get_distribution stamps w sd o).length := by
  unfold get_distribution
  exact (List.monotone_filter_right stamps
    (fun p hp => viewAllows_antitone w w' sd o p.1 hle hp)).length_le

theorem one_outcome_fits (stamps : StampColl) (w : Wave) (sd : Dims) (o : Idx)
    (s : Stamp) (h : get_collapse_outcomes stamps w sd o = .one s) :
    viewAllows w sd o s = true ∧ ∃ c, (s, c) ∈ stamps := by
  rw [get_collapse_outcomes_eq_filter] at h
  rcases hf : stamps.filter (fun p => viewAllows w sd o p.1) with _ | ⟨p, t⟩
  · rw [hf] at h
    cases h
  · cases t with
    | nil =>
      rw [hf] at h
      have hp : p.1 = s := by
        injection h
      have hmem : p ∈ stamps.filter (fun p => viewAllows w sd o p.1) := by
        rw [hf]
        exact List.mem_singleton.mpr rfl
      have hall := List.of_mem_filter hmem
      have hin := List.mem_of_mem_filter hmem
      refine ⟨hp ▸ hall, p.2, ?_⟩
      rw [← hp]
      exact hin
    | cons q t2 =>
      rw [hf] at h
      cases h

theorem stamp_voxel_lt (stamps : StampColl) (s : Stamp) (c : ℕ)
    (hvox : ∀ p ∈ stamps, ∀ v ∈ p.1, v < 64) (hmem : (s, c) ∈ stamps) (n : ℕ) :
    s.getD n 0 < 64 := by
  by_cases hn : n < s.length
  · rw [List.getD_eq_getElem s 0 hn]
    exact hvox (s, c) hmem _ (List.getElem_mem hn)
  · rw [List.getD_eq_default s 0 (by omega)]
    norm_num

theorem singleton_zero_get (off : Idx) (dims : Dims) (i : Idx) :
    FlatPaddedGridCuboid.get (⟨[0], off, dims⟩ : Wave) i = 0 := by
  unfold FlatPaddedGridCuboid.get
  split
  · cases Dims.linearize dims ((i.sub off).toDims)
    · rfl
    · rfl
  · rfl

theorem waveExec_growth_aux (D : ℕ) (sd : Dims) (stamps : StampColl) (w0 : Wave)
    (hD : D ≤ 64)
    (hvox : ∀ p ∈ stamps, ∀ v ∈ p.1, v < 64)
    (hclean : cleanWave D w0) :
    ∀ (fuel : ℕ) (c : WaveCall) (w' : Wave), GoodCall D sd w0 c →
      waveExec D sd stamps fuel c = .ok w' → wavePointwiseLe w0 w' := by
  intro fuel
  induction fuel with
  | zero =>
    intro c w' _ h
    exact absurd h (by simp [waveExec])
  | succ fuel ih =>
    intro c w' hg h
    cases c with
    | set w index value =>
      obtain ⟨hgw, hgv⟩ := hg
      simp only [waveExec] at h
      split at h
      · cases h
        exact hgw
      · split at h
        · cases h
        · rename_i w1 hset
          split at h
          · cases h
          · cases h
          · cases h
          · rename_i w2 hcol
            cases h
            refine ih _ _ ?_ hcol
            show wavePointwiseLe w0 w1
            intro j
            by_cases hj : j = index
            · subst hj
              rcases get_set_self w w1 j value hset with he | he
              · rw [he]
                exact hgv
              · rw [he]
                exact hgw j
            · rw [get_set_ne w w1 index value hset j hj]
              exact hgw j
    | limitCells w index stamp ns =>
      obtain ⟨hgw, hgs⟩ := hg
      cases ns with
      | nil =>
        simp only [waveExec] at h
        cases h
        exact hgw
      | cons n rest =>
        simp only [waveExec] at h
        split at h
        · split at h
          · cases h
          · cases h
          · cases h
          · rename_i w1 hset
            refine ih (WaveCall.limitCells w1 index stamp rest) _ ?_ h
            refine ⟨?_, fun m hm => hgs m (by simp [hm])⟩
            exact ih (WaveCall.set w (index.add (Dims.toIdx (sd.delinearize n)))
              (Superposition.only D (stamp.getD n 0))) w1 ⟨hgw, hgs n (by simp)⟩ hset
        · refine ih (WaveCall.limitCells w index stamp rest) _ ?_ h
          exact ⟨hgw, fun m hm => hgs m (by simp [hm])⟩
    | limitStamp w index stamp =>
      obtain ⟨hgw, hgs⟩ := hg
      simp only [waveExec] at h
      refine ih (WaveCall.limitCells w index stamp (List.range sd.size)) _ ?_ h
      exact ⟨hgw, fun n hn => hgs n (List.mem_range.mp hn)⟩
    | collapseSites w sites =>
      cases sites with
      | nil =>
        simp only [waveExec] at h
        cases h
        exact hg
      | cons o rest =>
        simp only [waveExec] at h
        split at h
        · rename_i stamp hone
          split at h
          · cases h
          · cases h
          · cases h
          · rename_i w1 hls
            refine ih (WaveCall.collapseSites w1 rest) _ ?_ h
            show wavePointwiseLe w0 w1
            refine ih (WaveCall.limitStamp w o stamp) w1 ⟨hg, ?_⟩ hls
            intro n hn
            obtain ⟨hfit, cnt, hmem⟩ := one_outcome_fits stamps w sd o stamp hone
            have hallow : Superposition.allows
                (w.get (o.add (Dims.toIdx (sd.delinearize n)))) (stamp.getD n 0) = true := by
              unfold viewAllows at hfit
              rw [List.all_eq_true] at hfit
              exact hfit n (List.mem_range.mpr hn)
            rw [allows_eq_not_testBit, Bool.not_eq_true'] at hallow
            have hb0 : (w0.get (o.add (Dims.toIdx (sd.delinearize n)))).testBit
                (stamp.getD n 0) = false := by
              cases hb : (w0.get (o.add (Dims.toIdx (sd.delinearize n)))).testBit
                  (stamp.getD n 0)
              · rfl
              · rw [hg _ _ hb] at hallow
                cases hallow
            exact maskLe_only_of D (stamp.getD n 0) _ hD
              (stamp_voxel_lt stamps stamp cnt hvox hmem n) (hclean _) hb0
        · exact ih (WaveCall.collapseSites w rest) _ hg h
    | collapse w extent =>
      simp only [waveExec] at h
      exact ih (WaveCall.collapseSites w
        ((extent.intersection (w.get_stamps_extent sd)).iter)) _ hg h

/-- C4 (amended): when D fits the 64-bit mask, every stamp voxel id is below
64, every cell of the wave lies within the impossible() mask, and the
written value s is a restriction of the old cell value (every forbidden bit
of the cell is forbidden in s), a successful Naive::set leaves no stamp
offset whatsoever (in particular none inside [index - D + 1, index + 1])
admitting more fitting stamps than before: the write and every propagated
limit only add forbidden bits, and the set of fitting stamps is antitone in
the forbidden bits. -/
theorem set_monotone_restriction_of_restricting
    (D : ℕ) (sd : Dims) (stamps : StampColl) (fuel : ℕ) (w w' : Wave)
    (i : Idx) (s : Mask)
    (hD : D ≤ 64)
    (hvox : ∀ p ∈ stamps, ∀ v ∈ p.1, v < 64)
    (hclean : cleanWave D w)
    (hold : maskLe (w.get i) s)
    (hok : waveSet D sd stamps fuel w i s = .ok w') (o : Idx) :
    (get_distribution stamps w' sd o).length ≤
      (get_distribution stamps w sd o).length := by
  have hgrow : wavePointwiseLe w w' :=
    waveExec_growth_aux D sd stamps w hD hvox hclean fuel (.set w i s) w'
      ⟨fun j k hk => hk, hold⟩ hok
  exact get_distribution_anti stamps w w' sd o hgrow

/-- Witness for the amended C4 theorem: on the one-cell all-FREE wave with
the two 1x1x1 stamps, writing only(1) (a restriction of FREE) yields the
one-cell only(1) wave, and the stamp offset (0,0,0) admits at most as many
stamps afterwards. -/
theorem set_monotone_restriction_of_restricting_witness :
    (get_distribution c4Stamps (⟨[5], (0, 0, 0), (1, 1, 1)⟩ : Wave)
      (1, 1, 1) (0, 0, 0)).length ≤
    (get_distribution c4Stamps (⟨[0], (0, 0, 0), (1, 1, 1)⟩ : Wave)
      (1, 1, 1) (0, 0, 0)).length :=
  set_monotone_restriction_of_restricting 2 (1, 1, 1) c4Stamps 10
    (⟨[0], (0, 0, 0), (1, 1, 1)⟩ : Wave) (⟨[5], (0, 0, 0), (1, 1, 1)⟩ : Wave)
    (0, 0, 0) (Superposition.only 2 1)
    (by decide) (by decide)
    (by intro j k hk; rw [singleton_zero_get] at hk; simp at hk)
    (by intro k hk; rw [singleton_zero_get] at hk; simp at hk)
    (by decide) (0, 0, 0)
